import Mathlib

/-!
Verification of the openclaw-mem0-v2 sleep-mode pipeline and identity
resolver, as a shallow embedding of the TypeScript source.

JavaScript strings are modeled as `List Char` (one element per UTF-16 code
unit; all inputs of interest are in the Basic Multilingual Plane, where code
units and characters coincide).  File-system reads and `JSON.parse` are
external primitives of the runtime, not code of this repository; they are
modeled as explicit parameters (an `Option`-valued snapshot of a directory,
an abstract parse oracle) so the embedded functions stay executable.
-/

namespace Mem0

/-- Role of a cleaned conversation message (source: `LogEntry.messages[].role`
in the sleep-mode module). -/
inductive Role where
  | user
  | assistant
  | tool
deriving DecidableEq, Repr

/-- One cleaned conversation message of a `LogEntry` (source: the
`messages` element type of `interface LogEntry`). -/
structure LogMessage where
  role : Role
  content : List Char
  tool_name : Option (List Char) := none
deriving DecidableEq, Repr

/-- One captured conversation turn-set (source: `interface LogEntry` of the
sleep-mode module). -/
structure LogEntry where
  ts : List Char
  user_id : List Char
  channel : List Char
  session_id : List Char
  messages : List LogMessage
deriving DecidableEq, Repr

/-! ## Chunker (`chunkForAnalysis`) -/

/-- Models `Array.prototype.join("\n")`: concatenates the given lines with a
single newline between consecutive lines. -/
def joinNL : List (List Char) → List Char
  | [] => []
  | [l] => l
  | l :: ls => l ++ '\n' :: joinNL ls

/-- Rendering of one message inside `chunkForAnalysis`: the
`lines.push(prefixText + ": " + msg.content)` step, where the prefix is
`USER`, `TOOL(<name or unknown>)` or `ASSISTANT`.  The source reads
`msg.tool_name || "unknown"`, so an empty tool name also falls back to
`unknown`. -/
def renderMessage (m : LogMessage) : List Char :=
  (match m.role with
    | Role.user => "USER".data
    | Role.tool =>
        "TOOL(".data ++
          (match m.tool_name with
            | some t => if t = [] then "unknown".data else t
            | none => "unknown".data) ++ ")".data
    | Role.assistant => "ASSISTANT".data)
  ++ ": ".data ++ m.content

/-- Rendering of one `LogEntry` inside `chunkForAnalysis`: the header line,
one line per message, joined by newlines, followed by a blank line
(`lines.join("\n") + "\n\n"`). -/
def renderEntry (e : LogEntry) : List Char :=
  joinNL (("--- Session: ".data ++ e.session_id ++ " | User: ".data ++ e.user_id
      ++ " | ".data ++ e.ts ++ " ---".data) :: e.messages.map renderMessage)
  ++ "\n\n".data

/-- Models truthiness of JavaScript `s.trim()`: the trimmed string is
non-empty exactly when `s` contains a non-whitespace character. -/
def hasNonWS (cs : List Char) : Bool := cs.any (fun c => !c.isWhitespace)

/-- The accumulation loop of `chunkForAnalysis`: for each entry, if adding its
rendering would push the buffer over `maxChunkChars` and the buffer is
non-empty, flush the buffer and start a new one with that entry; at the end,
flush the final buffer if its trimming is non-empty. -/
def chunkLoop (maxChunkChars : Nat) : List LogEntry → List Char → List (List Char)
  | [], currentChunk => if hasNonWS currentChunk then [currentChunk] else []
  | e :: rest, currentChunk =>
    let entryText := renderEntry e
    if maxChunkChars < currentChunk.length + entryText.length ∧ 0 < currentChunk.length then
      currentChunk :: chunkLoop maxChunkChars rest entryText
    else
      chunkLoop maxChunkChars rest (currentChunk ++ entryText)

/-- Source function `chunkForAnalysis(entries, maxChunkChars)`. -/
def chunkForAnalysis (entries : List LogEntry) (maxChunkChars : Nat) : List (List Char) :=
  chunkLoop maxChunkChars entries []

/-- Concatenated rendering of a group of entries. -/
def renderGroup (g : List LogEntry) : List Char := (g.map renderEntry).flatten

/-- Proof-side mirror of `chunkLoop` that tracks which entries are in the
buffer instead of the buffer text itself. -/
def groupLoop (maxChunkChars : Nat) : List LogEntry → List LogEntry → List (List LogEntry)
  | [], cur => if cur = [] then [] else [cur]
  | e :: rest, cur =>
    if maxChunkChars < (renderGroup cur).length + (renderEntry e).length ∧
        0 < (renderGroup cur).length then
      cur :: groupLoop maxChunkChars rest [e]
    else
      groupLoop maxChunkChars rest (cur ++ [e])

/-- Grouping of the input entries induced by a `chunkForAnalysis` run. -/
def chunkGroups (entries : List LogEntry) (maxChunkChars : Nat) : List (List LogEntry) :=
  groupLoop maxChunkChars entries []

theorem joinNL_cons (h : List Char) (t : List (List Char)) :
    ∃ r, joinNL (h :: t) = h ++ r := by
  cases t with
  | nil => exact ⟨[], by simp [joinNL]⟩
  | cons x xs => exact ⟨'\n' :: joinNL (x :: xs), rfl⟩

theorem renderEntry_head (e : LogEntry) : ∃ r, renderEntry e = '-' :: r := by
  unfold renderEntry
  obtain ⟨r, hr⟩ := joinNL_cons
    ("--- Session: ".data ++ e.session_id ++ " | User: ".data ++ e.user_id
      ++ " | ".data ++ e.ts ++ " ---".data) (e.messages.map renderMessage)
  rw [hr]
  exact ⟨_, rfl⟩

theorem hasNonWS_renderEntry_append (e : LogEntry) (r : List Char) :
    hasNonWS (renderEntry e ++ r) = true := by
  obtain ⟨s, hs⟩ := renderEntry_head e
  rw [hs]
  simp [hasNonWS]

theorem renderGroup_nil : renderGroup [] = [] := rfl

theorem renderGroup_cons (e : LogEntry) (g : List LogEntry) :
    renderGroup (e :: g) = renderEntry e ++ renderGroup g := by
  simp [renderGroup]

theorem renderGroup_singleton (e : LogEntry) : renderGroup [e] = renderEntry e := by
  simp [renderGroup]

theorem renderGroup_append (g₁ g₂ : List LogEntry) :
    renderGroup (g₁ ++ g₂) = renderGroup g₁ ++ renderGroup g₂ := by
  simp [renderGroup]

theorem hasNonWS_renderGroup (g : List LogEntry) (hg : g ≠ []) :
    hasNonWS (renderGroup g) = true := by
  cases g with
  | nil => exact absurd rfl hg
  | cons e gs => rw [renderGroup_cons]; exact hasNonWS_renderEntry_append e _

/-- The text-buffer loop computes exactly the rendering of the groups computed
by the group loop. -/
theorem chunkLoop_eq_groupLoop (maxChunkChars : Nat) (rest : List LogEntry) :
    ∀ cur : List LogEntry,
      chunkLoop maxChunkChars rest (renderGroup cur) =
        (groupLoop maxChunkChars rest cur).map renderGroup := by
  induction rest with
  | nil =>
    intro cur
    cases cur with
    | nil => simp [chunkLoop, groupLoop, hasNonWS, renderGroup]
    | cons e gs =>
      rw [chunkLoop, groupLoop]
      rw [hasNonWS_renderGroup (e :: gs) (by simp)]
      simp
  | cons e rest ih =>
    intro cur
    rw [chunkLoop, groupLoop]
    by_cases h : maxChunkChars < (renderGroup cur).length + (renderEntry e).length ∧
        0 < (renderGroup cur).length
    · rw [if_pos h, if_pos h, List.map_cons]
      have := ih [e]
      rw [renderGroup_singleton] at this
      rw [this]
    · rw [if_neg h, if_neg h]
      have := ih (cur ++ [e])
      rw [renderGroup_append, renderGroup_singleton] at this
      exact this

theorem groupLoop_flatten (maxChunkChars : Nat) (rest : List LogEntry) :
    ∀ cur : List LogEntry,
      (groupLoop maxChunkChars rest cur).flatten = cur ++ rest := by
  induction rest with
  | nil =>
    intro cur
    cases cur with
    | nil => simp [groupLoop]
    | cons e gs => simp [groupLoop]
  | cons e rest ih =>
    intro cur
    rw [groupLoop]
    by_cases h : maxChunkChars < (renderGroup cur).length + (renderEntry e).length ∧
        0 < (renderGroup cur).length
    · rw [if_pos h, List.flatten_cons, ih [e]]
      simp
    · rw [if_neg h, ih (cur ++ [e])]
      simp

theorem groupLoop_ne_nil (maxChunkChars : Nat) (rest : List LogEntry) :
    ∀ cur : List LogEntry, ∀ g ∈ groupLoop maxChunkChars rest cur, g ≠ [] := by
  induction rest with
  | nil =>
    intro cur g hg
    by_cases hcur : cur = []
    · rw [groupLoop, if_pos hcur] at hg
      simp at hg
    · rw [groupLoop, if_neg hcur] at hg
      simp at hg
      rw [hg]; exact hcur
  | cons e rest ih =>
    intro cur g hg
    rw [groupLoop] at hg
    by_cases h : maxChunkChars < (renderGroup cur).length + (renderEntry e).length ∧
        0 < (renderGroup cur).length
    · rw [if_pos h] at hg
      rcases List.mem_cons.mp hg with h1 | h2
      · subst h1
        intro hnil
        rw [hnil, renderGroup_nil] at h
        simp at h
      · exact ih [e] g h2
    · rw [if_neg h] at hg
      exact ih (cur ++ [e]) g hg

theorem groupLoop_bounded (maxChunkChars : Nat) (rest : List LogEntry) :
    ∀ cur : List LogEntry,
      (2 ≤ cur.length → (renderGroup cur).length ≤ maxChunkChars) →
      ∀ g ∈ groupLoop maxChunkChars rest cur,
        2 ≤ g.length → (renderGroup g).length ≤ maxChunkChars := by
  induction rest with
  | nil =>
    intro cur hcur g hg
    by_cases hnil : cur = []
    · rw [groupLoop, if_pos hnil] at hg
      simp at hg
    · rw [groupLoop, if_neg hnil] at hg
      simp at hg
      subst hg
      exact hcur
  | cons e rest ih =>
    intro cur hcur g hg
    rw [groupLoop] at hg
    by_cases h : maxChunkChars < (renderGroup cur).length + (renderEntry e).length ∧
        0 < (renderGroup cur).length
    · rw [if_pos h] at hg
      rcases List.mem_cons.mp hg with h1 | h2
      · subst h1; exact hcur
      · exact ih [e] (by simp) g h2
    · rw [if_neg h] at hg
      refine ih (cur ++ [e]) ?_ g hg
      intro hlen
      rw [renderGroup_append, renderGroup_singleton, List.length_append]
      simp only [List.length_append, List.length_singleton] at hlen
      have hpos : 0 < cur.length := by omega
      have : ¬ maxChunkChars < (renderGroup cur).length + (renderEntry e).length := by
        intro hc; exact h ⟨hc, by
          cases cur with
          | nil => simp at hpos
          | cons c cs =>
            rw [renderGroup_cons]
            obtain ⟨r, hr⟩ := renderEntry_head c
            rw [hr]; simp⟩
      omega

/-- C2: `chunkForAnalysis` never splits a single entry's rendering across a
chunk boundary — the chunks are exactly the renderings of a consecutive
grouping of the input entries; concatenating the chunks reproduces the
renderings of all entries in order; every chunk holding more than one entry's
rendering is within `maxChunkChars`, so only a single oversized entry can
exceed the limit; and the empty entry list yields no chunks. -/
theorem C2_chunkForAnalysis_spec (entries : List LogEntry) (maxChunkChars : Nat)
    (hpos : 0 < maxChunkChars) :
    ∃ groups : List (List LogEntry),
      groups.flatten = entries ∧
      chunkForAnalysis entries maxChunkChars = groups.map renderGroup ∧
      (∀ g ∈ groups, g ≠ []) ∧
      (∀ g ∈ groups, 2 ≤ g.length → (renderGroup g).length ≤ maxChunkChars) ∧
      (chunkForAnalysis entries maxChunkChars).flatten = renderGroup entries ∧
      chunkForAnalysis ([] : List LogEntry) maxChunkChars = [] := by
  refine ⟨chunkGroups entries maxChunkChars, ?_, ?_, ?_, ?_, ?_, ?_⟩
  · exact groupLoop_flatten maxChunkChars entries []
  · have := chunkLoop_eq_groupLoop maxChunkChars entries []
    rw [renderGroup_nil] at this
    exact this
  · exact groupLoop_ne_nil maxChunkChars entries []
  · exact groupLoop_bounded maxChunkChars entries [] (by simp [renderGroup_nil])
  · have h1 := chunkLoop_eq_groupLoop maxChunkChars entries []
    rw [renderGroup_nil] at h1
    show (chunkForAnalysis entries maxChunkChars).flatten = _
    rw [chunkForAnalysis, h1]
    have h2 : ∀ gs : List (List LogEntry), (gs.map renderGroup).flatten = renderGroup gs.flatten := by
      intro gs
      induction gs with
      | nil => rfl
      | cons g gs ihg => simp [renderGroup_append, ihg]
    rw [h2, groupLoop_flatten maxChunkChars entries []]
    rfl
  · rfl

/-- Witness for C2 at a concrete input. -/
theorem C2_chunkForAnalysis_spec_witness :
    0 < (10 : Nat) ∧
    ∃ groups : List (List LogEntry),
      groups.flatten = [⟨"t".data, "u".data, "c".data, "s".data, []⟩] ∧
      chunkForAnalysis [⟨"t".data, "u".data, "c".data, "s".data, []⟩] 10 =
        groups.map renderGroup ∧
      (∀ g ∈ groups, g ≠ []) ∧
      (∀ g ∈ groups, 2 ≤ g.length → (renderGroup g).length ≤ 10) ∧
      (chunkForAnalysis [⟨"t".data, "u".data, "c".data, "s".data, []⟩] 10).flatten =
        renderGroup [⟨"t".data, "u".data, "c".data, "s".data, []⟩] ∧
      chunkForAnalysis ([] : List LogEntry) 10 = [] :=
  ⟨by decide, C2_chunkForAnalysis_spec [⟨"t".data, "u".data, "c".data, "s".data, []⟩] 10 (by decide)⟩

/-! ## Identity resolver (`resolveUserId`, `simpleHash`) -/

/-- Helper for `splitColon`: prepend one character to a segment list — a colon
opens a new first segment, any other character extends the first segment. -/
def consColon (c : Char) : List (List Char) → List (List Char)
  | [] => [[]]
  | g :: gs => if c = ':' then [] :: g :: gs else (c :: g) :: gs

/-- Models `str.split(":")`: the colon-separated segments of the string, with
`split` of the empty string yielding one empty segment. -/
def splitColon : List Char → List (List Char)
  | [] => [[]]
  | c :: rest => consColon c (splitColon rest)

/-- Models `parts.join(":")`. -/
def joinColon : List (List Char) → List Char
  | [] => []
  | [g] => g
  | g :: gs => g ++ ':' :: joinColon gs

/-- Wraps an integer into the signed 32-bit range, as JavaScript bitwise
operations (`<<`, `&`) do with their operands and result. -/
def toInt32 (n : Int) : Int := (n + 2 ^ 31) % 2 ^ 32 - 2 ^ 31

/-- One iteration of the `simpleHash` loop:
`hash = (hash << 5) - hash + char; hash = hash & hash`. -/
def hashStep (h : Int) (c : Char) : Int := toInt32 (toInt32 (h * 32) - h + c.toNat)

/-- Lowercase hexadecimal digit, as produced by `Number.prototype.toString(16)`. -/
def hexChar (n : Nat) : Char := if n < 10 then Char.ofNat (48 + n) else Char.ofNat (87 + n)

/-- Hexadecimal rendering of a natural number, most significant digit first
(`Math.abs(hash).toString(16)`). -/
def hexDigits (n : Nat) : List Char :=
  if _h : n < 16 then [hexChar n]
  else hexDigits (n / 16) ++ [hexChar (n % 16)]
termination_by n
decreasing_by exact Nat.div_lt_self (by omega) (by omega)

/-- Models `.padStart(8, "0").slice(0, 8)`. -/
def pad8 (cs : List Char) : List Char :=
  (if cs.length < 8 then List.replicate (8 - cs.length) '0' ++ cs else cs).take 8

/-- Source function `simpleHash(str)`: the 32-bit rolling hash of the string,
rendered as hex and padded/truncated to 8 characters. -/
def simpleHash (s : List Char) : List Char :=
  pad8 (hexDigits (s.foldl hashStep 0).natAbs)

/-- Context fields consulted by `resolveUserId` (source types `HookContext`
and `ToolContext`; a field that is absent or `undefined` is `none`). -/
structure ResolveCtx where
  sessionKey : Option (List Char) := none
  messageProvider : Option (List Char) := none
  messageChannel : Option (List Char) := none
deriving DecidableEq, Repr

/-- The session-key pattern branch of `resolveUserId`: if the key splits into
at least 4 segments and both the third segment and the joined remainder are
non-empty, the result is `third ++ ":" ++ remainder`. -/
def patternResult (sessionKey : List Char) : Option (List Char) :=
  let sessionParts := splitColon sessionKey
  if 4 ≤ sessionParts.length then
    let providerPart := sessionParts.getD 2 []
    let peerPart := joinColon (sessionParts.drop 3)
    if providerPart ≠ [] ∧ peerPart ≠ [] then some (providerPart ++ ':' :: peerPart)
    else none
  else none

/-- Source function `resolveUserId(ctx)`: session-key pattern first, then the
provider + hash fallback, then the session hash, then the literal default.
The provider is `ctx.messageProvider ?? ctx.messageChannel ?? ""`. -/
def resolveUserId (ctx : ResolveCtx) : List Char :=
  let sessionKey := ctx.sessionKey.getD []
  let provider := (ctx.messageProvider.or ctx.messageChannel).getD []
  match patternResult sessionKey with
  | some r => r
  | none =>
    if provider ≠ [] ∧ sessionKey ≠ [] then provider ++ ':' :: simpleHash sessionKey
    else if sessionKey ≠ [] then "session:".data ++ simpleHash sessionKey
    else "default".data

theorem splitColon_ne_nil (cs : List Char) : splitColon cs ≠ [] := by
  cases cs with
  | nil => simp [splitColon]
  | cons c rest =>
    rw [splitColon]
    cases h : splitColon rest with
    | nil => simp [consColon]
    | cons g gs =>
      rw [consColon]
      split <;> simp

theorem splitColon_append (a : List Char) :
    ∀ b g gs, (∀ c ∈ a, c ≠ ':') → splitColon b = g :: gs →
      splitColon (a ++ b) = (a ++ g) :: gs := by
  induction a with
  | nil => intro b g gs _ hb; simpa using hb
  | cons c a ih =>
    intro b g gs ha hb
    have hc : c ≠ ':' := ha c (by simp)
    have htail : splitColon (a ++ b) = (a ++ g) :: gs :=
      ih b g gs (fun x hx => ha x (by simp [hx])) hb
    rw [List.cons_append, splitColon, htail, consColon, if_neg hc, List.cons_append]

theorem splitColon_colon (b : List Char) : splitColon (':' :: b) = [] :: splitColon b := by
  rw [splitColon]
  cases h : splitColon b with
  | nil => exact absurd h (splitColon_ne_nil b)
  | cons g gs => rw [consColon, if_pos rfl]

theorem joinColon_splitColon (cs : List Char) : joinColon (splitColon cs) = cs := by
  induction cs with
  | nil => rfl
  | cons c rest ih =>
    rw [splitColon]
    cases h : splitColon rest with
    | nil => exact absurd h (splitColon_ne_nil rest)
    | cons g gs =>
      rw [h] at ih
      rw [consColon]
      by_cases hc : c = ':'
      · subst hc
        rw [if_pos rfl]
        show [] ++ ':' :: joinColon (g :: gs) = ':' :: rest
        simp [ih]
      · rw [if_neg hc]
        cases gs with
        | nil =>
          show joinColon [c :: g] = c :: rest
          rw [joinColon] at ih ⊢
          simp [ih]
        | cons g' gs' =>
          have ih' : g ++ ':' :: joinColon (g' :: gs') = rest := ih
          show (c :: g) ++ ':' :: joinColon (g' :: gs') = c :: rest
          rw [List.cons_append, ih']

theorem splitColon_four (w a p rest : List Char)
    (hw : ∀ c ∈ w, c ≠ ':') (ha : ∀ c ∈ a, c ≠ ':') (hp : ∀ c ∈ p, c ≠ ':') :
    splitColon (w ++ (':' :: (a ++ (':' :: (p ++ (':' :: rest)))))) =
      w :: a :: p :: splitColon rest := by
  cases hr : splitColon rest with
  | nil => exact absurd hr (splitColon_ne_nil rest)
  | cons g gs =>
    have h1 : splitColon (p ++ (':' :: rest)) = (p ++ []) :: g :: gs :=
      splitColon_append p (':' :: rest) [] (g :: gs) hp (by rw [splitColon_colon, hr])
    have h2 : splitColon (a ++ (':' :: (p ++ (':' :: rest)))) =
        (a ++ []) :: (p ++ []) :: g :: gs :=
      splitColon_append a _ [] ((p ++ []) :: g :: gs) ha (by rw [splitColon_colon, h1])
    have h3 : splitColon (w ++ (':' :: (a ++ (':' :: (p ++ (':' :: rest)))))) =
        (w ++ []) :: (a ++ []) :: (p ++ []) :: g :: gs :=
      splitColon_append w _ [] ((a ++ []) :: (p ++ []) :: g :: gs) hw
        (by rw [splitColon_colon, h2])
    simpa using h3

theorem pad8_length (cs : List Char) : (pad8 cs).length = 8 := by
  rw [pad8]
  split
  · next h => simp; omega
  · next h => simp; omega

theorem pad8_mem (cs : List Char) (c : Char) (hc : c ∈ pad8 cs) : c = '0' ∨ c ∈ cs := by
  rw [pad8] at hc
  have hc' := List.mem_of_mem_take hc
  split at hc'
  · rcases List.mem_append.mp hc' with h1 | h2
    · exact Or.inl (List.eq_of_mem_replicate h1)
    · exact Or.inr h2
  · exact Or.inr hc'

theorem hexChar_mem_of_lt (n : Nat) (h : n < 16) : hexChar n ∈ "0123456789abcdef".data := by
  interval_cases n <;> decide

theorem hexDigits_mem (n : Nat) : ∀ c ∈ hexDigits n, c ∈ "0123456789abcdef".data := by
  induction n using Nat.strong_induction_on with
  | _ n ih =>
    rw [hexDigits]
    split
    · next h =>
      intro c hc
      simp only [List.mem_singleton] at hc
      subst hc
      exact hexChar_mem_of_lt n h
    · next h =>
      intro c hc
      rcases List.mem_append.mp hc with h1 | h2
      · exact ih (n / 16) (Nat.div_lt_self (by omega) (by omega)) c h1
      · simp only [List.mem_singleton] at h2
        subst h2
        exact hexChar_mem_of_lt (n % 16) (Nat.mod_lt n (by omega))

theorem simpleHash_format (s : List Char) :
    (simpleHash s).length = 8 ∧ ∀ c ∈ simpleHash s, c ∈ "0123456789abcdef".data := by
  refine ⟨pad8_length _, ?_⟩
  intro c hc
  rcases pad8_mem _ c hc with h0 | hmem
  · subst h0; decide
  · exact hexDigits_mem _ c hmem

/-- Decidable version of the condition under which the session-key pattern
branch of `resolveUserId` fires. -/
def patternApplies (sk : List Char) : Prop :=
  4 ≤ (splitColon sk).length ∧ (splitColon sk).getD 2 [] ≠ [] ∧
    joinColon ((splitColon sk).drop 3) ≠ []

instance (sk : List Char) : Decidable (patternApplies sk) := by
  unfold patternApplies
  infer_instance

theorem patternResult_eq_none (sk : List Char) (h : ¬ patternApplies sk) :
    patternResult sk = none := by
  rw [patternResult]
  simp only [patternApplies, not_and_or] at h
  rcases h with h1 | h23
  · rw [if_neg h1]
  · by_cases h4 : 4 ≤ (splitColon sk).length
    · rw [if_pos h4, if_neg (by tauto)]
    · rw [if_neg h4]

theorem patternResult_eq_some (sk : List Char) (h : patternApplies sk) :
    patternResult sk =
      some ((splitColon sk).getD 2 [] ++ ':' :: joinColon ((splitColon sk).drop 3)) := by
  obtain ⟨h1, h2, h3⟩ := h
  rw [patternResult]
  rw [if_pos h1, if_pos ⟨h2, h3⟩]

theorem patternResult_four (w a p rest : List Char)
    (hw : ∀ c ∈ w, c ≠ ':') (ha : ∀ c ∈ a, c ≠ ':') (hp : ∀ c ∈ p, c ≠ ':')
    (hpne : p ≠ []) (hrestne : rest ≠ []) :
    patternResult (w ++ (':' :: (a ++ (':' :: (p ++ (':' :: rest)))))) =
      some (p ++ ':' :: rest) := by
  have hs := splitColon_four w a p rest hw ha hp
  have hrest0 : 0 < (splitColon rest).length :=
    List.length_pos.mpr (splitColon_ne_nil rest)
  rw [patternResult, hs]
  rw [if_pos (by simp; omega)]
  have hgetD : (w :: a :: p :: splitColon rest).getD 2 [] = p := rfl
  have hdrop : (w :: a :: p :: splitColon rest).drop 3 = splitColon rest := rfl
  rw [hgetD, hdrop, joinColon_splitColon]
  rw [if_pos ⟨hpne, hrestne⟩]

/-- C3 (amended): the session-key pattern branch fires for every key that
splits into at least four colon-separated segments with a non-empty third
segment and non-empty remainder — the literal first segment `agent` is not
required — returning `third:remainder` (the remainder may itself contain
colons); otherwise a non-empty provider/channel together with a non-empty
session key yields `provider:shortHash(sessionKey)`; otherwise a non-empty
session key yields `session:shortHash(sessionKey)`; otherwise the literal
`default`; and `simpleHash` always renders exactly 8 lowercase hex
characters. -/
theorem C3_resolveUserId_contract :
    (∀ (ctx : ResolveCtx) (w a p rest : List Char),
      ctx.sessionKey = some (w ++ (':' :: (a ++ (':' :: (p ++ (':' :: rest)))))) →
      (∀ c ∈ w, c ≠ ':') → (∀ c ∈ a, c ≠ ':') → (∀ c ∈ p, c ≠ ':') →
      p ≠ [] → rest ≠ [] →
      resolveUserId ctx = p ++ ':' :: rest) ∧
    (∀ ctx : ResolveCtx, ¬ patternApplies (ctx.sessionKey.getD []) →
      (ctx.messageProvider.or ctx.messageChannel).getD [] ≠ [] →
      ctx.sessionKey.getD [] ≠ [] →
      resolveUserId ctx =
        (ctx.messageProvider.or ctx.messageChannel).getD [] ++ ':' ::
          simpleHash (ctx.sessionKey.getD [])) ∧
    (∀ ctx : ResolveCtx, ¬ patternApplies (ctx.sessionKey.getD []) →
      (ctx.messageProvider.or ctx.messageChannel).getD [] = [] →
      ctx.sessionKey.getD [] ≠ [] →
      resolveUserId ctx = "session:".data ++ simpleHash (ctx.sessionKey.getD [])) ∧
    (∀ ctx : ResolveCtx, ctx.sessionKey.getD [] = [] →
      resolveUserId ctx = "default".data) ∧
    (∀ s : List Char, (simpleHash s).length = 8 ∧
      ∀ c ∈ simpleHash s, c ∈ "0123456789abcdef".data) := by
  refine ⟨?_, ?_, ?_, ?_, simpleHash_format⟩
  · intro ctx w a p rest hsk hw ha hp hpne hrestne
    simp only [resolveUserId, hsk, Option.getD_some]
    rw [patternResult_four w a p rest hw ha hp hpne hrestne]
  · intro ctx hnp hprov hsk
    simp only [resolveUserId]
    rw [patternResult_eq_none _ hnp, if_pos ⟨hprov, hsk⟩]
  · intro ctx hnp hprov hsk
    simp only [resolveUserId]
    rw [patternResult_eq_none _ hnp, if_neg (by simp [hprov]), if_pos hsk]
  · intro ctx hsk
    have hnp : ¬ patternApplies (ctx.sessionKey.getD []) := by
      rw [hsk]
      intro hpat
      have := hpat.1
      simp [splitColon] at this
    simp only [resolveUserId]
    rw [patternResult_eq_none _ hnp, if_neg (by simp [hsk]), if_neg (by simp [hsk])]

/-- Counterexample to C3 as stated: the session key `other:main:telegram:123`
does not match the `agent:<a>:<p>:<rest>` pattern (its first segment is not
`agent`), and a provider field is present, so the claim demands the
`provider:shortHash` fallback — but the code takes the pattern branch and
returns `telegram:123`. -/
theorem C3_counterexample :
    resolveUserId ⟨some "other:main:telegram:123".data, some "discord".data, none⟩ =
      "telegram:123".data ∧
    resolveUserId ⟨some "other:main:telegram:123".data, some "discord".data, none⟩ ≠
      "discord".data ++ ':' :: simpleHash "other:main:telegram:123".data := by
  have h1 : resolveUserId
      ⟨some "other:main:telegram:123".data, some "discord".data, none⟩ =
      "telegram:123".data := by decide
  refine ⟨h1, ?_⟩
  rw [h1]
  decide

/-- Witness for C3 at concrete inputs (the remainder contains a colon). -/
theorem C3_resolveUserId_contract_witness :
    resolveUserId
        ⟨some ("agent".data ++ (':' :: ("main".data ++ (':' ::
          ("telegram".data ++ (':' :: "123:456".data)))))), none, none⟩ =
      "telegram".data ++ ':' :: "123:456".data ∧
    (simpleHash "abc".data).length = 8 :=
  ⟨C3_resolveUserId_contract.1
      ⟨some ("agent".data ++ (':' :: ("main".data ++ (':' ::
        ("telegram".data ++ (':' :: "123:456".data)))))), none, none⟩
      "agent".data "main".data "telegram".data "123:456".data rfl
      (by decide) (by decide) (by decide) (by decide) (by decide),
    (C3_resolveUserId_contract.2.2.2.2 "abc".data).1⟩

/-- C10: the pattern branch of `resolveUserId` never inspects the literal
first segment — any session key with at least four colon-separated segments,
a non-empty third segment, and a non-empty remainder after the third colon
resolves to `third:remainder`. -/
theorem C10_pattern_ignores_first_segment (ctx : ResolveCtx)
    (h4 : 4 ≤ (splitColon (ctx.sessionKey.getD [])).length)
    (h3 : (splitColon (ctx.sessionKey.getD [])).getD 2 [] ≠ [])
    (hp : joinColon ((splitColon (ctx.sessionKey.getD [])).drop 3) ≠ []) :
    resolveUserId ctx =
      (splitColon (ctx.sessionKey.getD [])).getD 2 [] ++ ':' ::
        joinColon ((splitColon (ctx.sessionKey.getD [])).drop 3) := by
  simp only [resolveUserId]
  rw [patternResult_eq_some _ ⟨h4, h3, hp⟩]

/-- Witness for C10: a session key whose first segment is `zzz`, not `agent`,
still resolves through the pattern branch. -/
theorem C10_pattern_ignores_first_segment_witness :
    (splitColon "zzz:main:telegram:42".data).getD 0 [] ≠ "agent".data ∧
    resolveUserId ⟨some "zzz:main:telegram:42".data, none, none⟩ =
      "telegram:42".data := by
  refine ⟨by decide, ?_⟩
  have h := C10_pattern_ignores_first_segment
    ⟨some "zzz:main:telegram:42".data, none, none⟩ (by decide) (by decide) (by decide)
  rw [h]
  decide

/-! ## Identity map (`addAliasToIdentityMap`, `buildAliasLookup`) -/

/-- One identity entry of the identity map (source type `IdentityEntry`). -/
structure IdentityEntry where
  canonical : String
  aliases : List String
  label : Option String := none
deriving DecidableEq, Repr

/-- First loop of `addAliasToIdentityMap`: walk the entries looking for the
first one whose aliases contain the alias; if its canonical equals the target,
return early (modeled as `none`); otherwise remove the alias from that entry
and stop.  The in-place mutation of the source is modeled by returning the
updated entry list. -/
def detachLoop (canonical al : String) : List IdentityEntry → Option (List IdentityEntry)
  | [] => some []
  | e :: rest =>
    if al ∈ e.aliases then
      if e.canonical = canonical then none
      else some ({ e with aliases := e.aliases.filter (· ≠ al) } :: rest)
    else (detachLoop canonical al rest).map (e :: ·)

/-- Second phase of `addAliasToIdentityMap`: find (or create at the end) the
entry with the target canonical and push the alias if not already present;
the boolean is the `added` flag of the source's return value. -/
def attachLoop (canonical al : String) (label : Option String) :
    List IdentityEntry → Bool × List IdentityEntry
  | [] => (true, [⟨canonical, [al], label⟩])
  | e :: rest =>
    if e.canonical = canonical then
      if al ∈ e.aliases then (false, e :: rest)
      else (true, { e with aliases := e.aliases ++ [al] } :: rest)
    else
      let r := attachLoop canonical al label rest
      (r.1, e :: r.2)

/-- Source function `addAliasToIdentityMap(map, canonical, alias, label)`,
returning the `added` flag and the updated identity list. -/
def addAliasToIdentityMap (map : List IdentityEntry) (canonical al : String)
    (label : Option String := none) : Bool × List IdentityEntry :=
  match detachLoop canonical al map with
  | none => (false, map)
  | some m => attachLoop canonical al label m

/-- One entry's contribution to `buildAliasLookup`: set every alias to the
entry's canonical, then set the canonical to itself (later writes shadow
earlier ones, as `Map.prototype.set` does). -/
def lookupStep (acc : String → Option String) (e : IdentityEntry) : String → Option String :=
  let acc2 := e.aliases.foldl
    (fun acc1 a => fun s => if s = a then some e.canonical else acc1 s) acc
  fun s => if s = e.canonical then some e.canonical else acc2 s

/-- Source function `buildAliasLookup(identityMap)` restricted to a non-null
map; the JavaScript `Map` is modeled as the lookup function it denotes. -/
def buildAliasLookup (identities : List IdentityEntry) : String → Option String :=
  identities.foldl lookupStep (fun _ => none)

/-- Number of entries whose alias list contains `a`. -/
def aliasOwners (map : List IdentityEntry) (a : String) : Nat :=
  map.countP (fun e => decide (a ∈ e.aliases))

/-- Total number of occurrences of `a` across all alias lists. -/
def aliasCount (map : List IdentityEntry) (a : String) : Nat :=
  (map.map (fun e => e.aliases.count a)).sum

theorem aliasOwners_cons (e : IdentityEntry) (rest : List IdentityEntry) (x : String) :
    aliasOwners (e :: rest) x =
      aliasOwners rest x + (if x ∈ e.aliases then 1 else 0) := by
  simp only [aliasOwners, List.countP_cons]
  split <;> split <;> simp_all

theorem detachLoop_owners_other (c al : String) :
    ∀ (map m : List IdentityEntry), detachLoop c al map = some m →
      ∀ x, x ≠ al → aliasOwners m x = aliasOwners map x := by
  intro map
  induction map with
  | nil =>
    intro m hm x _
    simp [detachLoop] at hm
    subst hm; rfl
  | cons e rest ih =>
    intro m hm x hx
    rw [detachLoop] at hm
    by_cases hmem : al ∈ e.aliases
    · rw [if_pos hmem] at hm
      by_cases hcan : e.canonical = c
      · rw [if_pos hcan] at hm; cases hm
      · rw [if_neg hcan] at hm
        injection hm with hm
        subst hm
        rw [aliasOwners_cons, aliasOwners_cons]
        have hiff : (x ∈ List.filter (fun a => decide ¬a = al) e.aliases) ↔ x ∈ e.aliases := by
          rw [List.mem_filter]
          constructor
          · exact fun h => h.1
          · intro h; exact ⟨h, by simp [hx]⟩
        by_cases hx2 : x ∈ e.aliases
        · simp only [hx2, hiff.mpr hx2, if_pos]
        · rw [if_neg hx2, if_neg (fun h => hx2 (hiff.mp h))]
    · rw [if_neg hmem] at hm
      cases hrest : detachLoop c al rest with
      | none => rw [hrest] at hm; cases hm
      | some m' =>
        rw [hrest] at hm
        simp only [Option.map_some'] at hm
        injection hm with hm
        subst hm
        rw [aliasOwners_cons, aliasOwners_cons, ih m' hrest x hx]

theorem detachLoop_owners_al (c al : String) :
    ∀ (map m : List IdentityEntry), detachLoop c al map = some m →
      aliasOwners map al ≤ 1 → aliasOwners m al = 0 := by
  intro map
  induction map with
  | nil =>
    intro m hm _
    simp [detachLoop] at hm
    subst hm; rfl
  | cons e rest ih =>
    intro m hm hle
    rw [detachLoop] at hm
    by_cases hmem : al ∈ e.aliases
    · rw [if_pos hmem] at hm
      by_cases hcan : e.canonical = c
      · rw [if_pos hcan] at hm; cases hm
      · rw [if_neg hcan] at hm
        injection hm with hm
        subst hm
        rw [aliasOwners_cons, if_pos hmem] at hle
        rw [aliasOwners_cons]
        have h2 : ¬ al ∈ List.filter (fun a => decide ¬a = al) e.aliases := by
          simp [List.mem_filter]
        rw [if_neg h2]
        omega
    · rw [if_neg hmem] at hm
      cases hrest : detachLoop c al rest with
      | none => rw [hrest] at hm; cases hm
      | some m' =>
        rw [hrest] at hm
        simp only [Option.map_some'] at hm
        injection hm with hm
        subst hm
        rw [aliasOwners_cons, if_neg hmem] at hle
        rw [aliasOwners_cons, if_neg hmem, ih m' hrest (by omega)]

theorem attachLoop_owners_other (c al : String) (l : Option String) :
    ∀ (m : List IdentityEntry) (x : String), x ≠ al →
      aliasOwners (attachLoop c al l m).2 x = aliasOwners m x := by
  intro m
  induction m with
  | nil =>
    intro x hx
    show aliasOwners [⟨c, [al], l⟩] x = aliasOwners [] x
    rw [aliasOwners_cons]
    simp [aliasOwners, hx]
  | cons e rest ih =>
    intro x hx
    rw [attachLoop]
    by_cases hcan : e.canonical = c
    · rw [if_pos hcan]
      by_cases hmem : al ∈ e.aliases
      · rw [if_pos hmem]
      · rw [if_neg hmem]
        show aliasOwners ({ e with aliases := e.aliases ++ [al] } :: rest) x = _
        rw [aliasOwners_cons, aliasOwners_cons]
        have : (x ∈ e.aliases ++ [al]) ↔ x ∈ e.aliases := by simp [hx]
        by_cases hx2 : x ∈ e.aliases
        · rw [if_pos hx2, if_pos (this.mpr hx2)]
        · rw [if_neg hx2, if_neg (fun h => hx2 (this.mp h))]
    · rw [if_neg hcan]
      show aliasOwners (e :: (attachLoop c al l rest).2) x = _
      rw [aliasOwners_cons, aliasOwners_cons, ih x hx]

theorem attachLoop_owners_al (c al : String) (l : Option String) :
    ∀ m : List IdentityEntry, aliasOwners m al = 0 →
      aliasOwners (attachLoop c al l m).2 al ≤ 1 := by
  intro m
  induction m with
  | nil =>
    intro _
    show aliasOwners [⟨c, [al], l⟩] al ≤ 1
    rw [aliasOwners_cons]
    simp [aliasOwners]
  | cons e rest ih =>
    intro h0
    rw [aliasOwners_cons] at h0
    have hmem : ¬ al ∈ e.aliases := by
      intro hmem; rw [if_pos hmem] at h0; omega
    rw [if_neg hmem] at h0
    rw [attachLoop]
    by_cases hcan : e.canonical = c
    · rw [if_pos hcan, if_neg hmem]
      show aliasOwners ({ e with aliases := e.aliases ++ [al] } :: rest) al ≤ 1
      rw [aliasOwners_cons, if_pos (by simp)]
      omega
    · rw [if_neg hcan]
      show aliasOwners (e :: (attachLoop c al l rest).2) al ≤ 1
      rw [aliasOwners_cons, if_neg hmem]
      have := ih h0
      omega

theorem aliasCount_cons (e : IdentityEntry) (rest : List IdentityEntry) (x : String) :
    aliasCount (e :: rest) x = e.aliases.count x + aliasCount rest x := by
  simp [aliasCount, Nat.add_comm]

theorem aliasCount_pos_of_mem :
    ∀ (m : List IdentityEntry) (e : IdentityEntry), e ∈ m →
      ∀ a ∈ e.aliases, 0 < aliasCount m a := by
  intro m
  induction m with
  | nil => intro e he; cases he
  | cons x rest ih =>
    intro e he a ha
    rw [aliasCount_cons]
    rcases List.mem_cons.mp he with h1 | h2
    · subst h1
      have := List.count_pos_iff.mpr ha
      omega
    · have := ih e h2 a ha
      omega

theorem exists_mem_of_aliasCount_pos :
    ∀ (m : List IdentityEntry) (a : String), 0 < aliasCount m a →
      ∃ e ∈ m, a ∈ e.aliases := by
  intro m
  induction m with
  | nil => intro a h; simp [aliasCount] at h
  | cons x rest ih =>
    intro a h
    rw [aliasCount_cons] at h
    by_cases hx : a ∈ x.aliases
    · exact ⟨x, by simp, hx⟩
    · have h0 : x.aliases.count a = 0 := List.count_eq_zero.mpr hx
      obtain ⟨e, he, ha⟩ := ih a (by omega)
      exact ⟨e, by simp [he], ha⟩

theorem aliasCount_two (al : String) :
    ∀ (m : List IdentityEntry) (e e' : IdentityEntry), e ∈ m → e' ∈ m → e ≠ e' →
      al ∈ e.aliases → al ∈ e'.aliases → 2 ≤ aliasCount m al := by
  intro m
  induction m with
  | nil => intro e e' he; cases he
  | cons x rest ih =>
    intro e e' he he' hne ha ha'
    rw [aliasCount_cons]
    rcases List.mem_cons.mp he with h1 | h2
    · subst h1
      have he'r : e' ∈ rest := by
        rcases List.mem_cons.mp he' with h | h
        · exact absurd h.symm hne
        · exact h
      have hc1 := List.count_pos_iff.mpr ha
      have hc2 := aliasCount_pos_of_mem rest e' he'r al ha'
      omega
    · rcases List.mem_cons.mp he' with h1' | h2'
      · subst h1'
        have hc1 := List.count_pos_iff.mpr ha'
        have hc2 := aliasCount_pos_of_mem rest e h2 al ha
        omega
      · have := ih e e' h2 h2' hne ha ha'
        omega

theorem detachLoop_count_other (c al : String) :
    ∀ (map m : List IdentityEntry), detachLoop c al map = some m →
      ∀ x, x ≠ al → aliasCount m x = aliasCount map x := by
  intro map
  induction map with
  | nil =>
    intro m hm x _
    simp [detachLoop] at hm
    subst hm; rfl
  | cons e rest ih =>
    intro m hm x hx
    rw [detachLoop] at hm
    by_cases hmem : al ∈ e.aliases
    · rw [if_pos hmem] at hm
      by_cases hcan : e.canonical = c
      · rw [if_pos hcan] at hm; cases hm
      · rw [if_neg hcan] at hm
        injection hm with hm
        subst hm
        rw [aliasCount_cons, aliasCount_cons]
        have hproj : ({ e with aliases := e.aliases.filter (· ≠ al) } : IdentityEntry).aliases =
            e.aliases.filter (· ≠ al) := rfl
        rw [hproj]
        have : (e.aliases.filter (· ≠ al)).count x = e.aliases.count x :=
          List.count_filter (by simpa using hx)
        rw [this]
    · rw [if_neg hmem] at hm
      cases hrest : detachLoop c al rest with
      | none => rw [hrest] at hm; cases hm
      | some m' =>
        rw [hrest] at hm
        simp only [Option.map_some'] at hm
        injection hm with hm
        subst hm
        rw [aliasCount_cons, aliasCount_cons, ih m' hrest x hx]

theorem detachLoop_count_al (c al : String) :
    ∀ (map m : List IdentityEntry), detachLoop c al map = some m →
      aliasCount map al ≤ 1 → aliasCount m al = 0 := by
  intro map
  induction map with
  | nil =>
    intro m hm _
    simp [detachLoop] at hm
    subst hm; rfl
  | cons e rest ih =>
    intro m hm hle
    rw [detachLoop] at hm
    by_cases hmem : al ∈ e.aliases
    · rw [if_pos hmem] at hm
      by_cases hcan : e.canonical = c
      · rw [if_pos hcan] at hm; cases hm
      · rw [if_neg hcan] at hm
        injection hm with hm
        subst hm
        rw [aliasCount_cons] at hle
        rw [aliasCount_cons]
        have hproj : ({ e with aliases := e.aliases.filter (· ≠ al) } : IdentityEntry).aliases =
            e.aliases.filter (· ≠ al) := rfl
        rw [hproj]
        have h1 : (e.aliases.filter (· ≠ al)).count al = 0 :=
          List.count_eq_zero.mpr (by simp [List.mem_filter])
        have h2 := List.count_pos_iff.mpr hmem
        omega
    · rw [if_neg hmem] at hm
      cases hrest : detachLoop c al rest with
      | none => rw [hrest] at hm; cases hm
      | some m' =>
        rw [hrest] at hm
        simp only [Option.map_some'] at hm
        injection hm with hm
        subst hm
        rw [aliasCount_cons] at hle
        rw [aliasCount_cons, ih m' hrest (by omega)]
        have h0 : e.aliases.count al = 0 := List.count_eq_zero.mpr hmem
        omega

theorem attachLoop_fresh (c al : String) (l : Option String) :
    ∀ m : List IdentityEntry, aliasCount m al = 0 →
      (attachLoop c al l m).1 = true ∧
      aliasCount (attachLoop c al l m).2 al = 1 ∧
      (∀ e ∈ (attachLoop c al l m).2, al ∈ e.aliases → e.canonical = c) := by
  intro m
  induction m with
  | nil =>
    intro _
    refine ⟨rfl, ?_, ?_⟩
    · show aliasCount [⟨c, [al], l⟩] al = 1
      rw [aliasCount_cons]
      simp [aliasCount]
    · show ∀ e ∈ [(⟨c, [al], l⟩ : IdentityEntry)], al ∈ e.aliases → e.canonical = c
      intro e he _
      simp at he
      subst he
      rfl
  | cons e rest ih =>
    intro h0
    rw [aliasCount_cons] at h0
    have hmem : ¬ al ∈ e.aliases := by
      intro hmem
      have := List.count_pos_iff.mpr hmem
      omega
    have hrest0 : aliasCount rest al = 0 := by omega
    rw [attachLoop]
    by_cases hcan : e.canonical = c
    · rw [if_pos hcan, if_neg hmem]
      refine ⟨rfl, ?_, ?_⟩
      · show aliasCount ({ e with aliases := e.aliases ++ [al] } :: rest) al = 1
        rw [aliasCount_cons]
        have hproj : ({ e with aliases := e.aliases ++ [al] } : IdentityEntry).aliases =
            e.aliases ++ [al] := rfl
        rw [hproj]
        have hcnt : (e.aliases ++ [al]).count al = e.aliases.count al + 1 := by
          rw [List.count_append]
          simp
        have h0' : e.aliases.count al = 0 := List.count_eq_zero.mpr hmem
        omega
      · intro e' he' _ha'
        rcases List.mem_cons.mp he' with h1 | h2
        · subst h1; exact hcan
        · exact absurd (aliasCount_pos_of_mem rest e' h2 al _ha') (by omega)
    · rw [if_neg hcan]
      obtain ⟨ihb, ihc, ihp⟩ := ih hrest0
      refine ⟨ihb, ?_, ?_⟩
      · show aliasCount (e :: (attachLoop c al l rest).2) al = 1
        rw [aliasCount_cons]
        have h0' : e.aliases.count al = 0 := List.count_eq_zero.mpr hmem
        omega
      · intro e' he' ha'
        rcases List.mem_cons.mp he' with h1 | h2
        · subst h1; exact absurd ha' hmem
        · exact ihp e' h2 ha'

theorem detachLoop_none_of_owner (c al : String) :
    ∀ m : List IdentityEntry, (∃ e ∈ m, al ∈ e.aliases) →
      (∀ e ∈ m, al ∈ e.aliases → e.canonical = c) →
      detachLoop c al m = none := by
  intro m
  induction m with
  | nil => intro h _; obtain ⟨e, he, _⟩ := h; cases he
  | cons e rest ih =>
    intro hex hall
    rw [detachLoop]
    by_cases hmem : al ∈ e.aliases
    · rw [if_pos hmem, if_pos (hall e (by simp) hmem)]
    · rw [if_neg hmem]
      have hex' : ∃ e' ∈ rest, al ∈ e'.aliases := by
        obtain ⟨e', he', ha'⟩ := hex
        rcases List.mem_cons.mp he' with h1 | h2
        · subst h1; exact absurd ha' hmem
        · exact ⟨e', h2, ha'⟩
      rw [ih hex' (fun e' he' => hall e' (by simp [he']))]
      rfl

theorem detachLoop_none_exists (c al : String) :
    ∀ m : List IdentityEntry, detachLoop c al m = none →
      ∃ e ∈ m, al ∈ e.aliases ∧ e.canonical = c := by
  intro m
  induction m with
  | nil => intro h; simp [detachLoop] at h
  | cons e rest ih =>
    intro h
    rw [detachLoop] at h
    by_cases hmem : al ∈ e.aliases
    · rw [if_pos hmem] at h
      by_cases hcan : e.canonical = c
      · exact ⟨e, by simp, hmem, hcan⟩
      · rw [if_neg hcan] at h; cases h
    · rw [if_neg hmem] at h
      cases hrest : detachLoop c al rest with
      | none =>
        obtain ⟨e', he', h1, h2⟩ := ih hrest
        exact ⟨e', by simp [he'], h1, h2⟩
      | some m' => rw [hrest] at h; cases h

theorem innerFold_eval (c : String) :
    ∀ (alist : List String) (acc : String → Option String) (s : String),
      (alist.foldl (fun acc1 a => fun s' => if s' = a then some c else acc1 s') acc) s =
        if s ∈ alist then some c else acc s := by
  intro alist
  induction alist with
  | nil => intro acc s; simp
  | cons a as ih =>
    intro acc s
    rw [List.foldl_cons, ih]
    by_cases hs : s ∈ as
    · rw [if_pos hs, if_pos (List.mem_cons_of_mem a hs)]
    · rw [if_neg hs]
      show (if s = a then some c else acc s) = if s ∈ a :: as then some c else acc s
      by_cases hsa : s = a
      · rw [if_pos hsa, if_pos (by simp [hsa])]
      · rw [if_neg hsa, if_neg (by simp [hsa, hs])]

theorem lookupStep_eval (acc : String → Option String) (e : IdentityEntry) (s : String) :
    lookupStep acc e s =
      if s = e.canonical then some e.canonical
      else if s ∈ e.aliases then some e.canonical else acc s := by
  show (if s = e.canonical then some e.canonical
    else (e.aliases.foldl
      (fun acc1 a => fun s' => if s' = a then some e.canonical else acc1 s') acc) s) = _
  rw [innerFold_eval]

theorem buildFold_stable :
    ∀ (rest : List IdentityEntry) (s v : String) (acc : String → Option String),
      acc s = some v →
      (∀ e ∈ rest, (s ∈ e.aliases → e.canonical = v) ∧ (s = e.canonical → e.canonical = v)) →
      List.foldl lookupStep acc rest s = some v := by
  intro rest
  induction rest with
  | nil => intro s v acc hacc _; simpa using hacc
  | cons e rest ih =>
    intro s v acc hacc hcond
    rw [List.foldl_cons]
    refine ih s v (lookupStep acc e) ?_ (fun e' he' => hcond e' (by simp [he']))
    rw [lookupStep_eval]
    by_cases h1 : s = e.canonical
    · rw [if_pos h1, (hcond e (by simp)).2 h1]
    · rw [if_neg h1]
      by_cases h2 : s ∈ e.aliases
      · rw [if_pos h2, (hcond e (by simp)).1 h2]
      · rw [if_neg h2]; exact hacc

theorem aliasOwners_cons_le (e : IdentityEntry) (rest : List IdentityEntry) (x : String) :
    aliasOwners rest x ≤ aliasOwners (e :: rest) x := by
  rw [aliasOwners_cons]
  omega

theorem buildFold_canonical :
    ∀ (map : List IdentityEntry) (acc : String → Option String),
      (∀ e ∈ map, ∀ e' ∈ map, e.canonical ∈ e'.aliases → e'.canonical = e.canonical) →
      ∀ e ∈ map, List.foldl lookupStep acc map e.canonical = some e.canonical := by
  intro map
  induction map with
  | nil => intro acc _ e he; cases he
  | cons e0 rest ih =>
    intro acc hcross e he
    rcases List.mem_cons.mp he with h1 | h2
    · subst h1
      rw [List.foldl_cons]
      refine buildFold_stable rest e.canonical e.canonical (lookupStep acc e) ?_ ?_
      · rw [lookupStep_eval, if_pos rfl]
      · intro e1 he1
        constructor
        · intro hmem
          exact hcross e (by simp) e1 (by simp [he1]) hmem
        · intro hc; exact hc.symm
    · rw [List.foldl_cons]
      exact ih (lookupStep acc e0)
        (fun a ha a' ha' => hcross a (by simp [ha]) a' (by simp [ha'])) e h2

theorem buildFold_alias :
    ∀ (map : List IdentityEntry) (acc : String → Option String),
      (∀ x, aliasOwners map x ≤ 1) →
      (∀ e ∈ map, ∀ e' ∈ map, e.canonical ∈ e'.aliases → e'.canonical = e.canonical) →
      ∀ e ∈ map, ∀ a ∈ e.aliases, List.foldl lookupStep acc map a = some e.canonical := by
  intro map
  induction map with
  | nil => intro acc _ _ e he; cases he
  | cons e0 rest ih =>
    intro acc howners hcross e he a ha
    rcases List.mem_cons.mp he with h1 | h2
    · subst h1
      rw [List.foldl_cons]
      refine buildFold_stable rest a e.canonical (lookupStep acc e) ?_ ?_
      · rw [lookupStep_eval]
        by_cases h1 : a = e.canonical
        · rw [if_pos h1]
        · rw [if_neg h1, if_pos ha]
      · intro e1 he1
        constructor
        · intro hmem
          exfalso
          have h1 := howners a
          rw [aliasOwners_cons, if_pos ha] at h1
          have h2 : 0 < aliasOwners rest a :=
            List.countP_pos_iff.mpr ⟨e1, he1, by simp [hmem]⟩
          omega
        · intro hc
          have := hcross e1 (by simp [he1]) e (by simp) (hc ▸ ha)
          exact this.symm
    · rw [List.foldl_cons]
      refine ih (lookupStep acc e0)
        (fun x => le_trans (aliasOwners_cons_le e0 rest x) (howners x))
        (fun b hb b' hb' => hcross b (by simp [hb]) b' (by simp [hb'])) e h2 a ha

/-- C8 (amended): `addAliasToIdentityMap` preserves the invariant that each
alias string belongs to at most one entry; adding an alias and immediately
re-adding the same pair returns `added = false`, leaves the map unchanged, and
leaves exactly one occurrence of the alias, owned by the target canonical
(earlier owners are detached); and `buildAliasLookup` maps every alias to its
entry's canonical ID and every canonical ID to itself — the latter provided
additionally that no entry's canonical occurs as an alias of an entry with a
different canonical (without this extra condition the self-mapping of
canonicals fails, see the counterexample). -/
theorem C8_identityMap_spec :
    (∀ (map : List IdentityEntry) (c al : String) (l : Option String),
      (∀ x, aliasOwners map x ≤ 1) →
      ∀ x, aliasOwners (addAliasToIdentityMap map c al l).2 x ≤ 1) ∧
    (∀ (map : List IdentityEntry) (c al : String) (l : Option String),
      (∀ x, aliasCount map x ≤ 1) →
      (addAliasToIdentityMap (addAliasToIdentityMap map c al l).2 c al l).1 = false ∧
      (addAliasToIdentityMap (addAliasToIdentityMap map c al l).2 c al l).2 =
        (addAliasToIdentityMap map c al l).2 ∧
      aliasCount (addAliasToIdentityMap map c al l).2 al = 1 ∧
      (∀ e ∈ (addAliasToIdentityMap map c al l).2, al ∈ e.aliases → e.canonical = c)) ∧
    (∀ map : List IdentityEntry,
      (∀ x, aliasOwners map x ≤ 1) →
      (∀ e ∈ map, ∀ e' ∈ map, e.canonical ∈ e'.aliases → e'.canonical = e.canonical) →
      (∀ e ∈ map, ∀ a ∈ e.aliases, buildAliasLookup map a = some e.canonical) ∧
      (∀ e ∈ map, buildAliasLookup map e.canonical = some e.canonical)) := by
  refine ⟨?_, ?_, ?_⟩
  · intro map c al l howners x
    rw [addAliasToIdentityMap]
    cases hd : detachLoop c al map with
    | none => exact howners x
    | some m =>
      by_cases hx : x = al
      · subst hx
        exact attachLoop_owners_al c x l m (detachLoop_owners_al c x map m hd (howners x))
      · rw [attachLoop_owners_other c al l m x hx,
          detachLoop_owners_other c al map m hd x hx]
        exact howners x
  · intro map c al l hcount
    have key : aliasCount (addAliasToIdentityMap map c al l).2 al = 1 ∧
        (∀ e ∈ (addAliasToIdentityMap map c al l).2, al ∈ e.aliases → e.canonical = c) := by
      rw [addAliasToIdentityMap]
      cases hd : detachLoop c al map with
      | none =>
        obtain ⟨e, he, hmem, hcan⟩ := detachLoop_none_exists c al map hd
        have hpos := aliasCount_pos_of_mem map e he al hmem
        have hle := hcount al
        refine ⟨(by omega : aliasCount map al = 1), ?_⟩
        intro e' he' ha'
        by_cases heq : e' = e
        · rw [heq]; exact hcan
        · exact absurd
            (aliasCount_two al map e e' he he' (fun hh => heq hh.symm) hmem ha')
            (by omega)
      | some m =>
        have h0 := detachLoop_count_al c al map m hd (hcount al)
        obtain ⟨_, hcnt, hprop⟩ := attachLoop_fresh c al l m h0
        exact ⟨hcnt, hprop⟩
    obtain ⟨hcnt1, hprop1⟩ := key
    have hdnone : detachLoop c al (addAliasToIdentityMap map c al l).2 = none := by
      refine detachLoop_none_of_owner c al _ ?_ hprop1
      exact exists_mem_of_aliasCount_pos _ al (by omega)
    refine ⟨?_, ?_, hcnt1, hprop1⟩
    · rw [addAliasToIdentityMap, hdnone]
    · rw [addAliasToIdentityMap, hdnone]
  · intro map howners hcross
    exact ⟨fun e he a ha => buildFold_alias map (fun _ => none) howners hcross e he a ha,
      fun e he => buildFold_canonical map (fun _ => none) hcross e he⟩

/-- Counterexample to C8 as stated: in the map with entries `B` (no aliases)
and `A` (alias `B`), every alias string belongs to at most one entry, yet
`buildAliasLookup` maps the canonical ID `B` to `A`, not to itself — the later
alias write shadows the earlier canonical self-mapping. -/
theorem C8_counterexample :
    (∀ x, aliasOwners [⟨"B", [], none⟩, ⟨"A", ["B"], none⟩] x ≤ 1) ∧
    buildAliasLookup [⟨"B", [], none⟩, ⟨"A", ["B"], none⟩] "B" = some "A" ∧
    some "A" ≠ some "B" := by
  refine ⟨?_, by decide, by decide⟩
  intro x
  rw [aliasOwners_cons, aliasOwners_cons]
  have h0 : aliasOwners ([] : List IdentityEntry) x = 0 := rfl
  rw [h0]
  have h1 : ¬ (x ∈ (⟨"B", [], none⟩ : IdentityEntry).aliases) := by simp
  rw [if_neg h1]
  split <;> omega

/-- Witness for C8 at concrete inputs: alias `X` moves from canonical `B` to
canonical `A`, and the immediate re-add is a no-op. -/
theorem C8_identityMap_spec_witness :
    (∀ x, aliasCount [(⟨"B", ["X"], none⟩ : IdentityEntry)] x ≤ 1) ∧
    (addAliasToIdentityMap
      (addAliasToIdentityMap [⟨"B", ["X"], none⟩] "A" "X" none).2 "A" "X" none).1 = false ∧
    aliasCount (addAliasToIdentityMap [⟨"B", ["X"], none⟩] "A" "X" none).2 "X" = 1 := by
  have hcnt : ∀ x, aliasCount [(⟨"B", ["X"], none⟩ : IdentityEntry)] x ≤ 1 := by
    intro x
    rw [aliasCount_cons]
    have h0 : aliasCount ([] : List IdentityEntry) x = 0 := rfl
    rw [h0, List.count_singleton]
    split <;> omega
  have h := C8_identityMap_spec.2.1 [⟨"B", ["X"], none⟩] "A" "X" none hcnt
  exact ⟨hcnt, h.1, h.2.2.1⟩

/-! ## Analysis result parser (`parseSleepAnalysis`) -/

/-- Values produced by the external `JSON.parse` (no `undefined` occurs in
parsed JSON). -/
inductive Json where
  | null
  | bool (b : Bool)
  | num (n : Int)
  | str (s : List Char)
  | arr (xs : List Json)
  | obj (fields : List (List Char × Json))

/-- Models JavaScript `String.prototype.trim`: whitespace removed from both
ends. -/
def jsTrim (cs : List Char) : List Char :=
  ((cs.dropWhile Char.isWhitespace).reverse.dropWhile Char.isWhitespace).reverse

/-- Models `.replace(/^` `` `` `` `(?:json)?\n?/, "")`: strip a leading triple
backtick, an optional `json` tag, and an optional newline. -/
def stripFenceOpen (cs : List Char) : List Char :=
  if cs.take 3 = ['`', '`', '`'] then
    let r := cs.drop 3
    let r2 := if r.take 4 = ['j', 's', 'o', 'n'] then r.drop 4 else r
    match r2 with
    | '\n' :: r3 => r3
    | _ => r2
  else cs

/-- Drop the last `n` elements. -/
def dropLastN (n : Nat) (cs : List Char) : List Char := cs.take (cs.length - n)

/-- Models `.replace(/\n?` `` `` `` `$/, "")`: strip a trailing triple
backtick and the optional newline before it. -/
def stripFenceClose (cs : List Char) : List Char :=
  if cs.drop (cs.length - 3) = ['`', '`', '`'] then
    let r := dropLastN 3 cs
    match r.getLast? with
    | some '\n' => r.dropLast
    | _ => r
  else cs

/-- The fence-stripping stage of `parseSleepAnalysis`: trim, and if the text
starts with a triple backtick, strip the opening and closing fences. -/
def stripFences (response : List Char) : List Char :=
  let cleaned := jsTrim response
  if cleaned.take 3 = ['`', '`', '`'] then stripFenceClose (stripFenceOpen cleaned)
  else cleaned

/-- Models JavaScript property access `v.key` on a parsed JSON value: access
on `null` throws a TypeError (`Except.error`), an object yields the field when
present and `undefined` (`none`) otherwise, and any other value yields
`undefined`.  Objects from `JSON.parse` have unique keys, so `find?` order is
immaterial. -/
def jsGet (j : Json) (k : List Char) : Except Unit (Option Json) :=
  match j with
  | Json.null => Except.error ()
  | Json.obj fields => Except.ok ((fields.find? (fun p => decide (p.1 = k))).map Prod.snd)
  | _ => Except.ok none

/-- The parsed analysis record (source type `SleepAnalysis`).  The source
copies array fields without checking element types, so sequence fields hold
raw JSON values. -/
structure SleepAnalysis where
  hot_facts : List Json
  patterns : List Json
  reflections : List Json
  consolidations : List (List Json × List Char)
  digest : List Char

/-- Total property read for values `JSON.parse` can produce other than
`null`; agrees with `jsGet` away from `null`. -/
def jsGetD (j : Json) (k : List Char) : Option Json :=
  match j with
  | Json.obj fields => (fields.find? (fun p => decide (p.1 = k))).map Prod.snd
  | _ => none

/-- Models `Array.isArray(v) ? v : []` applied to a property value
(`none` = `undefined`). -/
def arrayOrElse (v : Option Json) : List Json :=
  match v with | some (Json.arr xs) => xs | _ => []

/-- Models `typeof v === "string" ? v : ""` applied to a property value. -/
def stringOrElse (v : Option Json) : List Char :=
  match v with | some (Json.str s) => s | _ => []

/-- One consolidation entry of the source's `.map` callback:
`merge_ids` defaults to an empty array and `into` to an empty string when not
well-typed; property access on a `null` element throws. -/
def extractConsolidation (c : Json) : Except Unit (List Json × List Char) := do
  let mi ← jsGet c "merge_ids".data
  let into ← jsGet c "into".data
  pure (arrayOrElse mi, stringOrElse into)

/-- Models `Array.prototype.map` with a throwing callback: elements are
processed left to right and the first exception propagates. -/
def mapExtract : List Json → Except Unit (List (List Json × List Char))
  | [] => Except.ok []
  | c :: rest => do
    let y ← extractConsolidation c
    let ys ← mapExtract rest
    pure (y :: ys)

/-- The field-extraction stage of `parseSleepAnalysis`: `Array.isArray` checks
with empty-sequence defaults, `typeof === "string"` check for `digest`, and
JavaScript property-access semantics via `jsGet`. -/
def extractAnalysis (j : Json) : Except Unit SleepAnalysis := do
  let hf ← jsGet j "hot_facts".data
  let pt ← jsGet j "patterns".data
  let rf ← jsGet j "reflections".data
  let cs ← jsGet j "consolidations".data
  let consolidations ←
    match cs with
    | some (Json.arr xs) => mapExtract xs
    | _ => pure []
  let dg ← jsGet j "digest".data
  pure
    { hot_facts := arrayOrElse hf
      patterns := arrayOrElse pt
      reflections := arrayOrElse rf
      consolidations := consolidations
      digest := stringOrElse dg }

/-- Source function `parseSleepAnalysis(response)`, parameterized by the
external `JSON.parse` oracle (`parse cleaned = none` models a parse
exception). -/
def parseSleepAnalysis (parse : List Char → Option Json) (response : List Char) :
    Except Unit SleepAnalysis :=
  match parse (stripFences response) with
  | none => Except.error ()
  | some j => extractAnalysis j

/-- Condition under which the extraction stage throws: the parsed value is
`null`, or its `consolidations` field is an array containing `null`. -/
def extractThrows (j : Json) : Prop :=
  j = Json.null ∨
    ∃ xs, jsGetD j "consolidations".data = some (Json.arr xs) ∧ Json.null ∈ xs

theorem bindE_ok {α β : Type} (a : α) (f : α → Except Unit β) :
    (Except.ok a >>= f : Except Unit β) = f a := rfl

theorem bindE_err {α β : Type} (f : α → Except Unit β) :
    (Except.error () >>= f : Except Unit β) = Except.error () := rfl

theorem jsGet_eq_ok (j : Json) (k : List Char) (hj : j ≠ Json.null) :
    jsGet j k = Except.ok (jsGetD j k) := by
  cases j <;> first | rfl | exact absurd rfl hj

theorem extractConsolidation_ok (c : Json) (hc : c ≠ Json.null) :
    extractConsolidation c =
      Except.ok (arrayOrElse (jsGetD c "merge_ids".data),
        stringOrElse (jsGetD c "into".data)) := by
  rw [extractConsolidation, jsGet_eq_ok c _ hc, bindE_ok, jsGet_eq_ok c _ hc, bindE_ok]
  rfl

theorem extractConsolidation_null : extractConsolidation Json.null = Except.error () := rfl

theorem mapExtract_ok (xs : List Json) (hxs : ∀ c ∈ xs, c ≠ Json.null) :
    mapExtract xs = Except.ok (xs.map (fun c =>
      (arrayOrElse (jsGetD c "merge_ids".data), stringOrElse (jsGetD c "into".data)))) := by
  induction xs with
  | nil => rfl
  | cons c rest ih =>
    rw [mapExtract, extractConsolidation_ok c (hxs c (by simp)), bindE_ok,
      ih (fun c' hc' => hxs c' (by simp [hc'])), bindE_ok]
    rfl

theorem mapExtract_err (xs : List Json) (hxs : Json.null ∈ xs) :
    mapExtract xs = Except.error () := by
  induction xs with
  | nil => cases hxs
  | cons c rest ih =>
    by_cases hc : c = Json.null
    · subst hc
      rw [mapExtract, extractConsolidation_null, bindE_err]
    · have hrest : Json.null ∈ rest := by
        rcases List.mem_cons.mp hxs with h | h
        · exact absurd h.symm hc
        · exact h
      rw [mapExtract, extractConsolidation_ok c hc, bindE_ok, ih hrest, bindE_err]

theorem extractAnalysis_null : extractAnalysis Json.null = Except.error () := rfl

/-- Reduction of `extractAnalysis` when the `consolidations` field is an
array. -/
theorem extractAnalysis_reduce_arr (j : Json) (hj : j ≠ Json.null) (xs : List Json)
    (hv : jsGetD j "consolidations".data = some (Json.arr xs)) :
    extractAnalysis j =
      mapExtract xs >>= fun consolidations =>
        Except.ok
          { hot_facts := arrayOrElse (jsGetD j "hot_facts".data)
            patterns := arrayOrElse (jsGetD j "patterns".data)
            reflections := arrayOrElse (jsGetD j "reflections".data)
            consolidations := consolidations
            digest := stringOrElse (jsGetD j "digest".data) } := by
  rw [extractAnalysis, jsGet_eq_ok j _ hj, bindE_ok, jsGet_eq_ok j _ hj, bindE_ok,
    jsGet_eq_ok j _ hj, bindE_ok, jsGet_eq_ok j _ hj, bindE_ok, hv]
  show (mapExtract xs >>= fun y =>
      jsGet j "digest".data >>= fun dg =>
        (pure
          { hot_facts := arrayOrElse (jsGetD j "hot_facts".data)
            patterns := arrayOrElse (jsGetD j "patterns".data)
            reflections := arrayOrElse (jsGetD j "reflections".data)
            consolidations := y
            digest := stringOrElse dg } : Except Unit SleepAnalysis)) = _
  congr 1
  funext y
  rw [jsGet_eq_ok j _ hj, bindE_ok]
  rfl

/-- Reduction of `extractAnalysis` when the `consolidations` field is not an
array. -/
theorem extractAnalysis_reduce_other (j : Json) (hj : j ≠ Json.null)
    (hv : ∀ xs, jsGetD j "consolidations".data ≠ some (Json.arr xs)) :
    extractAnalysis j =
      Except.ok
        { hot_facts := arrayOrElse (jsGetD j "hot_facts".data)
          patterns := arrayOrElse (jsGetD j "patterns".data)
          reflections := arrayOrElse (jsGetD j "reflections".data)
          consolidations := []
          digest := stringOrElse (jsGetD j "digest".data) } := by
  rw [extractAnalysis, jsGet_eq_ok j _ hj, bindE_ok, jsGet_eq_ok j _ hj, bindE_ok,
    jsGet_eq_ok j _ hj, bindE_ok, jsGet_eq_ok j _ hj, bindE_ok,
    jsGet_eq_ok j "digest".data hj]
  cases hv2 : jsGetD j "consolidations".data with
  | none => rfl
  | some j' =>
    cases j' with
    | arr xs => exact absurd hv2 (hv xs)
    | null => rfl
    | bool b => rfl
    | num n => rfl
    | str s => rfl
    | obj fs => rfl

theorem extractAnalysis_error_iff (j : Json) :
    extractAnalysis j = Except.error () ↔ extractThrows j := by
  by_cases hj : j = Json.null
  · subst hj
    exact ⟨fun _ => Or.inl rfl, fun _ => rfl⟩
  · by_cases hex : ∃ xs, jsGetD j "consolidations".data = some (Json.arr xs)
    · obtain ⟨xs, hv⟩ := hex
      rw [extractAnalysis_reduce_arr j hj xs hv]
      by_cases hnull : Json.null ∈ xs
      · rw [mapExtract_err xs hnull, bindE_err]
        exact ⟨fun _ => Or.inr ⟨xs, hv, hnull⟩, fun _ => rfl⟩
      · rw [mapExtract_ok xs (fun c hc hceq => hnull (hceq ▸ hc)), bindE_ok]
        constructor
        · intro h; cases h
        · rintro (h | ⟨xs', hv', hnull'⟩)
          · exact absurd h hj
          · rw [hv] at hv'
            injection hv' with hv'
            injection hv' with hv'
            exact absurd (hv' ▸ hnull') hnull
    · rw [extractAnalysis_reduce_other j hj (fun xs hx => hex ⟨xs, hx⟩)]
      constructor
      · intro h; cases h
      · rintro (h | ⟨xs', hv', _⟩)
        · exact absurd h hj
        · exact absurd ⟨xs', hv'⟩ hex

theorem extractAnalysis_ok_fields (j : Json) (a : SleepAnalysis)
    (h : extractAnalysis j = Except.ok a) :
    a.hot_facts = arrayOrElse (jsGetD j "hot_facts".data) ∧
    a.patterns = arrayOrElse (jsGetD j "patterns".data) ∧
    a.reflections = arrayOrElse (jsGetD j "reflections".data) ∧
    a.consolidations = (arrayOrElse (jsGetD j "consolidations".data)).map (fun c =>
      (arrayOrElse (jsGetD c "merge_ids".data), stringOrElse (jsGetD c "into".data))) ∧
    a.digest = stringOrElse (jsGetD j "digest".data) := by
  have hj : j ≠ Json.null := by
    intro hh; subst hh; rw [extractAnalysis_null] at h; cases h
  by_cases hex : ∃ xs, jsGetD j "consolidations".data = some (Json.arr xs)
  · obtain ⟨xs, hv⟩ := hex
    rw [extractAnalysis_reduce_arr j hj xs hv] at h
    by_cases hnull : Json.null ∈ xs
    · rw [mapExtract_err xs hnull, bindE_err] at h; cases h
    · rw [mapExtract_ok xs (fun c hc hceq => hnull (hceq ▸ hc)), bindE_ok] at h
      injection h with h
      subst h
      refine ⟨rfl, rfl, rfl, ?_, rfl⟩
      rw [hv]
      rfl
  · rw [extractAnalysis_reduce_other j hj (fun xs hx => hex ⟨xs, hx⟩)] at h
    injection h with h
    subst h
    refine ⟨rfl, rfl, rfl, ?_, rfl⟩
    cases hv : jsGetD j "consolidations".data with
    | none => rfl
    | some j' =>
      cases j' with
      | arr xs => exact absurd ⟨xs, hv⟩ hex
      | null => rfl
      | bool b => rfl
      | num n => rfl
      | str s => rfl
      | obj fs => rfl

theorem jsTrim_eq_self (cs : List Char)
    (h1 : ∀ c, cs.head? = some c → c.isWhitespace = false)
    (h2 : ∀ c, cs.getLast? = some c → c.isWhitespace = false) :
    jsTrim cs = cs := by
  rw [jsTrim]
  cases cs with
  | nil => rfl
  | cons c t =>
    rw [List.dropWhile_cons, if_neg (by simp [h1 c rfl])]
    cases hr : (c :: t).reverse with
    | nil => simp at hr
    | cons r rr =>
      have hlast : (c :: t).getLast? = some r := by
        rw [← List.head?_reverse, hr]
        rfl
      rw [List.dropWhile_cons, if_neg (by simp [h2 r hlast]), ← hr,
        List.reverse_reverse]

theorem stripFenceOpen_json (s : List Char) :
    stripFenceOpen (['`', '`', '`', 'j', 's', 'o', 'n', '\n'] ++ s) = s := rfl

theorem stripFenceOpen_plain (s : List Char) :
    stripFenceOpen (['`', '`', '`', '\n'] ++ s) = s := rfl

theorem stripFenceClose_wrap (s : List Char) :
    stripFenceClose (s ++ ['\n', '`', '`', '`']) = s := by
  have hlen : (s ++ ['\n', '`', '`', '`']).length = s.length + 4 := by simp
  have h41 : s.length + 4 - 3 = s.length + 1 := by omega
  have hdrop : (s ++ ['\n', '`', '`', '`']).drop ((s ++ ['\n', '`', '`', '`']).length - 3) =
      ['`', '`', '`'] := by
    rw [hlen, h41, List.drop_append 1]
    rfl
  have htake : dropLastN 3 (s ++ ['\n', '`', '`', '`']) = s ++ ['\n'] := by
    rw [dropLastN, hlen, h41, List.take_append 1]
    rfl
  simp only [stripFenceClose]
  rw [if_pos hdrop, htake, List.getLast?_concat]
  show (s ++ ['\n']).dropLast = s
  rw [List.dropLast_concat]

theorem stripFences_wrapJson (s : List Char) :
    stripFences (['`', '`', '`', 'j', 's', 'o', 'n', '\n'] ++ (s ++ ['\n', '`', '`', '`'])) =
      s := by
  simp only [stripFences]
  have htrim : jsTrim (['`', '`', '`', 'j', 's', 'o', 'n', '\n'] ++
      (s ++ ['\n', '`', '`', '`'])) =
      ['`', '`', '`', 'j', 's', 'o', 'n', '\n'] ++ (s ++ ['\n', '`', '`', '`']) := by
    refine jsTrim_eq_self _ (fun c hc => ?_) (fun c hc => ?_)
    · injection hc with hc
      rw [← hc]
      rfl
    · have hre : ['`', '`', '`', 'j', 's', 'o', 'n', '\n'] ++ (s ++ ['\n', '`', '`', '`']) =
          (['`', '`', '`', 'j', 's', 'o', 'n', '\n'] ++ (s ++ ['\n', '`', '`'])) ++ ['`'] := by
        simp
      rw [hre, List.getLast?_concat] at hc
      injection hc with hc
      rw [← hc]
      rfl
  have hcond : List.take 3 (['`', '`', '`', 'j', 's', 'o', 'n', '\n'] ++
      (s ++ ['\n', '`', '`', '`'])) = ['`', '`', '`'] := rfl
  rw [htrim, if_pos hcond, stripFenceOpen_json, stripFenceClose_wrap]

theorem stripFences_wrapPlain (s : List Char) :
    stripFences (['`', '`', '`', '\n'] ++ (s ++ ['\n', '`', '`', '`'])) = s := by
  simp only [stripFences]
  have htrim : jsTrim (['`', '`', '`', '\n'] ++ (s ++ ['\n', '`', '`', '`'])) =
      ['`', '`', '`', '\n'] ++ (s ++ ['\n', '`', '`', '`']) := by
    refine jsTrim_eq_self _ (fun c hc => ?_) (fun c hc => ?_)
    · injection hc with hc
      rw [← hc]
      rfl
    · have hre : ['`', '`', '`', '\n'] ++ (s ++ ['\n', '`', '`', '`']) =
          (['`', '`', '`', '\n'] ++ (s ++ ['\n', '`', '`'])) ++ ['`'] := by
        simp
      rw [hre, List.getLast?_concat] at hc
      injection hc with hc
      rw [← hc]
      rfl
  have hcond : List.take 3 (['`', '`', '`', '\n'] ++
      (s ++ ['\n', '`', '`', '`'])) = ['`', '`', '`'] := rfl
  rw [htrim, if_pos hcond, stripFenceOpen_plain, stripFenceClose_wrap]

theorem stripFences_id (s : List Char) (ht : jsTrim s = s)
    (h3 : s.take 3 ≠ ['`', '`', '`']) : stripFences s = s := by
  simp only [stripFences]
  rw [ht, if_neg h3]

/-- C4 (amended): a leading/trailing markdown code fence (with or without the
`json` tag) is stripped before parsing, and fence-wrapped text parses exactly
like the unwrapped text; the function raises an error iff the fence-stripped
text is not valid JSON, or parses to JSON `null`, or its `consolidations`
field is an array containing `null` (property access on `null` throws); for
any other valid JSON, missing or wrongly-typed fields degrade to
empty-sequence/empty-string defaults, with each consolidation entry's
`merge_ids` defaulting to an empty sequence and `into` to the empty string
when not well-typed. -/
theorem C4_parseSleepAnalysis_spec :
    (∀ (parse : List Char → Option Json) (s : List Char),
      jsTrim s = s → s.take 3 ≠ ['`', '`', '`'] →
      parseSleepAnalysis parse ("```json\n".data ++ (s ++ "\n```".data)) =
          parseSleepAnalysis parse s ∧
      parseSleepAnalysis parse ("```\n".data ++ (s ++ "\n```".data)) =
          parseSleepAnalysis parse s) ∧
    (∀ (parse : List Char → Option Json) (r : List Char),
      parseSleepAnalysis parse r = Except.error () ↔
        parse (stripFences r) = none ∨
          ∃ j, parse (stripFences r) = some j ∧ extractThrows j) ∧
    (∀ j : Json, extractAnalysis j = Except.error () ↔ extractThrows j) ∧
    (∀ (j : Json) (a : SleepAnalysis), extractAnalysis j = Except.ok a →
      a.hot_facts = arrayOrElse (jsGetD j "hot_facts".data) ∧
      a.patterns = arrayOrElse (jsGetD j "patterns".data) ∧
      a.reflections = arrayOrElse (jsGetD j "reflections".data) ∧
      a.consolidations = (arrayOrElse (jsGetD j "consolidations".data)).map (fun c =>
        (arrayOrElse (jsGetD c "merge_ids".data), stringOrElse (jsGetD c "into".data))) ∧
      a.digest = stringOrElse (jsGetD j "digest".data)) := by
  refine ⟨?_, ?_, extractAnalysis_error_iff, extractAnalysis_ok_fields⟩
  · intro parse s ht h3
    have e1 : "```json\n".data = ['`', '`', '`', 'j', 's', 'o', 'n', '\n'] := rfl
    have e2 : "```\n".data = ['`', '`', '`', '\n'] := rfl
    have e3 : "\n```".data = ['\n', '`', '`', '`'] := rfl
    constructor
    · rw [parseSleepAnalysis, parseSleepAnalysis, e1, e3, stripFences_wrapJson,
        stripFences_id s ht h3]
    · rw [parseSleepAnalysis, parseSleepAnalysis, e2, e3, stripFences_wrapPlain,
        stripFences_id s ht h3]
  · intro parse r
    rw [parseSleepAnalysis]
    cases hp : parse (stripFences r) with
    | none => simp
    | some j =>
      show extractAnalysis j = Except.error () ↔ _
      rw [extractAnalysis_error_iff]
      constructor
      · intro ht; exact Or.inr ⟨j, rfl, ht⟩
      · rintro (h | ⟨j', hj', ht⟩)
        · cases h
        · injection hj' with hj'
          rw [hj']
          exact ht

/-- Counterexample to C4 as stated: the text `null` is valid JSON (the parse
oracle accepts it), yet `parseSleepAnalysis` raises an error, because the
source immediately reads `parsed.hot_facts` and property access on `null`
throws — so raising an error is not equivalent to the text being invalid
JSON. -/
theorem C4_counterexample :
    (fun t => if t = "null".data then some Json.null else none) (stripFences "null".data) =
      some Json.null ∧
    parseSleepAnalysis (fun t => if t = "null".data then some Json.null else none)
      "null".data = Except.error () := ⟨rfl, rfl⟩

/-- Witness for C4 at concrete inputs. -/
theorem C4_parseSleepAnalysis_spec_witness :
    (jsTrim "7".data = "7".data ∧ "7".data.take 3 ≠ ['`', '`', '`']) ∧
    parseSleepAnalysis (fun _ => some (Json.num 7))
        ("```json\n".data ++ ("7".data ++ "\n```".data)) =
      parseSleepAnalysis (fun _ => some (Json.num 7)) "7".data :=
  ⟨⟨by decide, by decide⟩,
    (C4_parseSleepAnalysis_spec.1 (fun _ => some (Json.num 7)) "7".data
      (by decide) (by decide)).1⟩

/-! ## Log store (`findUnprocessedLogs`) -/

/-- Code-unit comparison of strings: the ascending order that
`a.date.localeCompare(b.date)` induces on ASCII date strings. -/
def lexLe : List Char → List Char → Bool
  | [], _ => true
  | _ :: _, [] => false
  | a :: as, b :: bs => if a = b then lexLe as bs else decide (a < b)

/-- Models `f.endsWith(".jsonl")`. -/
def endsWithJsonl (f : List Char) : Bool :=
  decide (f.drop (f.length - 6) = ".jsonl".data)

/-- Models `basename(f, ".jsonl")`. -/
def stripJsonl (f : List Char) : List Char := f.take (f.length - 6)

/-- Source function `findUnprocessedLogs(logDir)`, returning the unprocessed
dates in order (the source pairs each date with the path
`<logDir>/<date>.jsonl`, determined by the date).  The file system is an
explicit parameter: `dir = none` models a non-existent directory, otherwise
the name list `readdirSync` returns; `processed` is the date set read by
`getProcessedDates` and `today` the current UTC date string. -/
def findUnprocessedLogs (dir : Option (List (List Char))) (processed : List (List Char))
    (today : List Char) : List (List Char) :=
  match dir with
  | none => []
  | some names =>
    (((names.filter endsWithJsonl).map stripJsonl).filter
      (fun d => decide (d ≠ today) && decide (d ∉ processed))).mergeSort lexLe

theorem lexLe_total : ∀ a b, (lexLe a b || lexLe b a) = true := by
  intro a
  induction a with
  | nil => intro b; simp [lexLe]
  | cons x xs ih =>
    intro b
    cases b with
    | nil => simp [lexLe]
    | cons y ys =>
      by_cases hxy : x = y
      · subst hxy
        simp only [lexLe, if_pos rfl]
        exact ih ys
      · have h1 : lexLe (x :: xs) (y :: ys) = decide (x < y) := by
          simp [lexLe, hxy]
        have h2 : lexLe (y :: ys) (x :: xs) = decide (y < x) := by
          simp [lexLe, Ne.symm hxy]
        rw [h1, h2]
        rcases lt_or_gt_of_ne hxy with h | h
        · simp [h]
        · simp [h]

theorem lexLe_trans : ∀ a b c, lexLe a b = true → lexLe b c = true → lexLe a c = true := by
  intro a
  induction a with
  | nil => intro b c _ _; rfl
  | cons x xs ih =>
    intro b c hab hbc
    cases b with
    | nil => simp [lexLe] at hab
    | cons y ys =>
      cases c with
      | nil => simp [lexLe] at hbc
      | cons z zs =>
        by_cases hxy : x = y <;> by_cases hyz : y = z
        · subst hxy; subst hyz
          simp only [lexLe, if_pos rfl] at hab hbc ⊢
          exact ih ys zs hab hbc
        · subst hxy
          simp only [lexLe, if_pos rfl, if_neg hyz] at hbc ⊢
          exact hbc
        · subst hyz
          simp only [lexLe, if_neg hxy] at hab ⊢
          exact hab
        · simp only [lexLe, if_neg hxy] at hab
          simp only [lexLe, if_neg hyz] at hbc
          have hxz : x < z := lt_trans (of_decide_eq_true hab) (of_decide_eq_true hbc)
          have hne : x ≠ z := ne_of_lt hxz
          simp [lexLe, hne, hxz]

theorem stripJsonl_append (d : List Char) :
    stripJsonl (d ++ ".jsonl".data) = d := by
  rw [stripJsonl]
  have h6 : (d ++ ".jsonl".data).length = d.length + 6 := by simp
  rw [h6]
  have h0 : d.length + 6 - 6 = d.length + 0 := by omega
  rw [h0, List.take_append 0]
  simp

theorem endsWithJsonl_append (d : List Char) :
    endsWithJsonl (d ++ ".jsonl".data) = true := by
  rw [endsWithJsonl]
  have h6 : (d ++ ".jsonl".data).length = d.length + 6 := by simp
  rw [h6]
  have h0 : d.length + 6 - 6 = d.length + 0 := by omega
  rw [h0, List.drop_append 0]
  simp

theorem eq_append_of_endsWithJsonl (f : List Char) (hf : endsWithJsonl f = true) :
    stripJsonl f ++ ".jsonl".data = f := by
  rw [endsWithJsonl, decide_eq_true_eq] at hf
  rw [stripJsonl, ← hf, List.take_append_drop]

/-- C5: `findUnprocessedLogs` yields the empty sequence for a non-existent
directory; a date is in the result exactly when its daily-log file is in the
directory, the date is not the current UTC date, and the date is not in the
processed set; and the result is sorted ascending by code-unit comparison of
date strings. -/
theorem C5_findUnprocessedLogs_spec :
    (∀ (processed : List (List Char)) (today : List Char),
      findUnprocessedLogs none processed today = []) ∧
    (∀ (names processed : List (List Char)) (today d : List Char),
      d ∈ findUnprocessedLogs (some names) processed today ↔
        (d ++ ".jsonl".data) ∈ names ∧ d ≠ today ∧ d ∉ processed) ∧
    (∀ (dir : Option (List (List Char))) (processed : List (List Char)) (today : List Char),
      (findUnprocessedLogs dir processed today).Sorted (fun a b => lexLe a b = true)) := by
  refine ⟨fun _ _ => rfl, ?_, ?_⟩
  · intro names processed today d
    rw [findUnprocessedLogs]
    rw [(List.mergeSort_perm _ lexLe).mem_iff]
    rw [List.mem_filter, List.mem_map]
    constructor
    · rintro ⟨⟨f, hf, hstrip⟩, hpred⟩
      rw [List.mem_filter] at hf
      obtain ⟨hfnames, hfends⟩ := hf
      simp only [Bool.and_eq_true, decide_eq_true_eq] at hpred
      subst hstrip
      exact ⟨by rw [eq_append_of_endsWithJsonl f hfends]; exact hfnames, hpred.1, hpred.2⟩
    · rintro ⟨hmem, htoday, hproc⟩
      refine ⟨⟨d ++ ".jsonl".data, ?_, stripJsonl_append d⟩, ?_⟩
      · rw [List.mem_filter]
        exact ⟨hmem, endsWithJsonl_append d⟩
      · simp only [Bool.and_eq_true, decide_eq_true_eq]
        exact ⟨htoday, hproc⟩
  · intro dir processed today
    cases dir with
    | none => simp [findUnprocessedLogs, List.Sorted]
    | some names =>
      exact List.sorted_mergeSort lexLe_trans lexLe_total _

/-- Witness for C5 at concrete inputs: `notes.txt` is ignored, today's file
and the processed date are excluded, and the remaining date is returned. -/
theorem C5_findUnprocessedLogs_spec_witness :
    ("2026-02-08".data ∈ findUnprocessedLogs
        (some ["2026-02-07.jsonl".data, "2026-02-08.jsonl".data, "notes.txt".data])
        ["2026-02-07".data] "2026-02-09".data ↔
      ("2026-02-08".data ++ ".jsonl".data) ∈
          ["2026-02-07.jsonl".data, "2026-02-08.jsonl".data, "notes.txt".data] ∧
        "2026-02-08".data ≠ "2026-02-09".data ∧
        "2026-02-08".data ∉ ["2026-02-07".data]) ∧
    "2026-02-08".data ∈ findUnprocessedLogs
        (some ["2026-02-07.jsonl".data, "2026-02-08.jsonl".data, "notes.txt".data])
        ["2026-02-07".data] "2026-02-09".data :=
  have h := C5_findUnprocessedLogs_spec.2.1
    ["2026-02-07.jsonl".data, "2026-02-08.jsonl".data, "notes.txt".data]
    ["2026-02-07".data] "2026-02-09".data "2026-02-08".data
  ⟨h, h.mpr ⟨by decide, by decide, by decide⟩⟩

/-! ## Cold search (`searchLogs`) -/

/-- Strict code-unit comparison, as JavaScript `<` on strings. -/
def lexLt : List Char → List Char → Bool
  | [], [] => false
  | [], _ :: _ => true
  | _ :: _, [] => false
  | a :: as, b :: bs => if a = b then lexLt as bs else decide (a < b)

/-- Models `hay.indexOf(needle)` (and `includes` via `isSome`): the least
index at which `needle` occurs as a contiguous segment of `hay`. -/
def jsIndexOf (hay needle : List Char) : Option Nat :=
  (List.range (hay.length + 1)).find? (fun i => needle.isPrefixOf (hay.drop i))

/-- The per-entry message scan of `searchLogs`: the first message whose
lowercased content contains the lowercased query yields a context snippet of
up to 100 characters before and after the match, with an ellipsis affixed on
each side that was truncated (`substring(start, end)` is drop-then-take). -/
def firstMatch (queryLower : List Char) (qLen : Nat) : List LogMessage → Option (List Char)
  | [] => none
  | m :: rest =>
    match jsIndexOf (m.content.map Char.toLower) queryLower with
    | some idx =>
      let start := idx - 100
      let stop := min m.content.length (idx + qLen + 100)
      some ((if 0 < start then "...".data else []) ++
        ((m.content.drop start).take (stop - start)) ++
        (if stop < m.content.length then "...".data else []))
    | none => firstMatch queryLower qLen rest

/-- The entry loop of `searchLogs` for one file: stop once `limit` results
are collected; each matching entry contributes one result. -/
def scanEntries (limit : Nat) (ql : List Char) (qLen : Nat) :
    List LogEntry → List (LogEntry × List Char) → List (LogEntry × List Char)
  | [], acc => acc
  | e :: rest, acc =>
    if limit ≤ acc.length then acc
    else
      match firstMatch ql qLen e.messages with
      | some ctx => scanEntries limit ql qLen rest (acc ++ [(e, ctx)])
      | none => scanEntries limit ql qLen rest acc

/-- The file loop of `searchLogs`. -/
def scanFiles (limit : Nat) (ql : List Char) (qLen : Nat) :
    List (List Char × List LogEntry) → List (LogEntry × List Char) →
      List (LogEntry × List Char)
  | [], acc => acc
  | f :: rest, acc =>
    if limit ≤ acc.length then acc
    else scanFiles limit ql qLen rest (scanEntries limit ql qLen f.2 acc)

/-- The file listing `searchLogs` scans: `.jsonl` files mapped to their
filename-derived date, restricted to the inclusive date bounds (an empty
bound string is falsy in the source and disables that bound), sorted newest
date first. -/
def searchFiles (listing : List (List Char × List LogEntry)) (dateFrom dateTo : List Char) :
    List (List Char × List LogEntry) :=
  (((listing.filter (fun p => endsWithJsonl p.1)).map
      (fun p => (stripJsonl p.1, p.2))).filter
    (fun p => !(decide (dateFrom ≠ []) && lexLt p.1 dateFrom) &&
      !(decide (dateTo ≠ []) && lexLt dateTo p.1))).mergeSort (fun a b => lexLe b.1 a.1)

/-- Source function `searchLogs(logDir, query, dateFrom, dateTo, limit)`.
The file system is an explicit parameter: `fs = none` models a non-existent
directory, otherwise the pairs of raw file name and the entries
`readDailyLog` yields for that file. -/
def searchLogs (fs : Option (List (List Char × List LogEntry))) (query : List Char)
    (dateFrom dateTo : List Char) (limit : Nat) : List (LogEntry × List Char) :=
  match fs with
  | none => []
  | some listing =>
    scanFiles limit (query.map Char.toLower) query.length
      (searchFiles listing dateFrom dateTo) []

/-- Does an entry contain a matching message? -/
def entryMatches (ql : List Char) (qLen : Nat) (e : LogEntry) : Bool :=
  (firstMatch ql qLen e.messages).isSome

/-- Number of matching entries across a file list. -/
def countMatches (ql : List Char) (qLen : Nat)
    (files : List (List Char × List LogEntry)) : Nat :=
  (files.map (fun f => f.2.countP (entryMatches ql qLen))).sum

theorem scanEntries_length (limit : Nat) (ql : List Char) (qLen : Nat) :
    ∀ (entries : List LogEntry) (acc : List (LogEntry × List Char)),
      acc.length ≤ limit →
      (scanEntries limit ql qLen entries acc).length =
        min limit (acc.length + entries.countP (entryMatches ql qLen)) := by
  intro entries
  induction entries with
  | nil =>
    intro acc hle
    rw [scanEntries, List.countP_nil]
    omega
  | cons e rest ih =>
    intro acc hle
    rw [scanEntries]
    by_cases hstop : limit ≤ acc.length
    · rw [if_pos hstop]
      omega
    · rw [if_neg hstop]
      cases hm : firstMatch ql qLen e.messages with
      | some ctx =>
        have hpred : entryMatches ql qLen e = true := by
          rw [entryMatches, hm]; rfl
        have hcnt : (e :: rest).countP (entryMatches ql qLen) =
            rest.countP (entryMatches ql qLen) + 1 := by
          rw [List.countP_cons, hpred]
          simp
        rw [ih (acc ++ [(e, ctx)]) (by simp; omega), hcnt]
        simp only [List.length_append, List.length_singleton]
        omega
      | none =>
        have hpred : entryMatches ql qLen e = false := by
          rw [entryMatches, hm]; rfl
        have hcnt : (e :: rest).countP (entryMatches ql qLen) =
            rest.countP (entryMatches ql qLen) := by
          rw [List.countP_cons, hpred]
          simp
        rw [ih acc hle, hcnt]

theorem scanFiles_length (limit : Nat) (ql : List Char) (qLen : Nat) :
    ∀ (files : List (List Char × List LogEntry)) (acc : List (LogEntry × List Char)),
      acc.length ≤ limit →
      (scanFiles limit ql qLen files acc).length =
        min limit (acc.length + countMatches ql qLen files) := by
  intro files
  induction files with
  | nil =>
    intro acc hle
    rw [scanFiles]
    simp [countMatches]
    omega
  | cons f rest ih =>
    intro acc hle
    rw [scanFiles]
    have hcm : countMatches ql qLen (f :: rest) =
        f.2.countP (entryMatches ql qLen) + countMatches ql qLen rest := by
      simp [countMatches]
    by_cases hstop : limit ≤ acc.length
    · rw [if_pos hstop]
      omega
    · rw [if_neg hstop]
      have hlen1 := scanEntries_length limit ql qLen f.2 acc (by omega)
      have hle1 : (scanEntries limit ql qLen f.2 acc).length ≤ limit := by omega
      rw [ih _ hle1, hlen1, hcm]
      omega

theorem scanEntries_mem (limit : Nat) (ql : List Char) (qLen : Nat) :
    ∀ (entries : List LogEntry) (acc : List (LogEntry × List Char)) r,
      r ∈ scanEntries limit ql qLen entries acc →
      r ∈ acc ∨ (r.1 ∈ entries ∧ firstMatch ql qLen r.1.messages = some r.2) := by
  intro entries
  induction entries with
  | nil =>
    intro acc r hr
    rw [scanEntries] at hr
    exact Or.inl hr
  | cons e rest ih =>
    intro acc r hr
    rw [scanEntries] at hr
    by_cases hstop : limit ≤ acc.length
    · rw [if_pos hstop] at hr; exact Or.inl hr
    · rw [if_neg hstop] at hr
      cases hm : firstMatch ql qLen e.messages with
      | some ctx =>
        rw [hm] at hr
        rcases ih (acc ++ [(e, ctx)]) r hr with h1 | h2
        · rcases List.mem_append.mp h1 with ha | hb
          · exact Or.inl ha
          · simp only [List.mem_singleton] at hb
            subst hb
            exact Or.inr ⟨by simp, hm⟩
        · exact Or.inr ⟨by simp [h2.1], h2.2⟩
      | none =>
        rw [hm] at hr
        rcases ih acc r hr with h1 | h2
        · exact Or.inl h1
        · exact Or.inr ⟨by simp [h2.1], h2.2⟩

theorem scanFiles_mem (limit : Nat) (ql : List Char) (qLen : Nat) :
    ∀ (files : List (List Char × List LogEntry)) (acc : List (LogEntry × List Char)) r,
      r ∈ scanFiles limit ql qLen files acc →
      r ∈ acc ∨ ∃ f ∈ files, r.1 ∈ f.2 ∧ firstMatch ql qLen r.1.messages = some r.2 := by
  intro files
  induction files with
  | nil =>
    intro acc r hr
    rw [scanFiles] at hr
    exact Or.inl hr
  | cons f rest ih =>
    intro acc r hr
    rw [scanFiles] at hr
    by_cases hstop : limit ≤ acc.length
    · rw [if_pos hstop] at hr; exact Or.inl hr
    · rw [if_neg hstop] at hr
      rcases ih _ r hr with h1 | ⟨f', hf', h2⟩
      · rcases scanEntries_mem limit ql qLen f.2 acc r h1 with ha | hb
        · exact Or.inl ha
        · exact Or.inr ⟨f, by simp, hb.1, hb.2⟩
      · exact Or.inr ⟨f', by simp [hf'], h2⟩

theorem firstMatch_eq_some (ql : List Char) (qLen : Nat) :
    ∀ (msgs : List LogMessage) (ctx : List Char),
      firstMatch ql qLen msgs = some ctx →
      ∃ pre m post idx, msgs = pre ++ m :: post ∧
        (∀ m' ∈ pre, jsIndexOf (m'.content.map Char.toLower) ql = none) ∧
        jsIndexOf (m.content.map Char.toLower) ql = some idx ∧
        ctx = (if 0 < idx - 100 then "...".data else []) ++
          ((m.content.drop (idx - 100)).take
            (min m.content.length (idx + qLen + 100) - (idx - 100))) ++
          (if min m.content.length (idx + qLen + 100) < m.content.length
            then "...".data else []) := by
  intro msgs
  induction msgs with
  | nil => intro ctx h; cases h
  | cons m rest ih =>
    intro ctx h
    rw [firstMatch] at h
    cases hm : jsIndexOf (m.content.map Char.toLower) ql with
    | some idx =>
      rw [hm] at h
      injection h with h
      exact ⟨[], m, rest, idx, rfl, by simp, hm, h.symm⟩
    | none =>
      rw [hm] at h
      obtain ⟨pre, m', post, idx, hsplit, hpre, hidx, hctx⟩ := ih ctx h
      refine ⟨m :: pre, m', post, idx, by rw [hsplit]; rfl, ?_, hidx, hctx⟩
      intro m'' hm''
      rcases List.mem_cons.mp hm'' with h1 | h2
      · subst h1; exact hm
      · exact hpre m'' h2

theorem jsIndexOf_isPrefixOf (hay needle : List Char) (idx : Nat)
    (h : jsIndexOf hay needle = some idx) :
    needle.isPrefixOf (hay.drop idx) = true := by
  rw [jsIndexOf] at h
  have h2 := List.find?_some h
  simpa using h2

/-- C7: `searchLogs` returns the empty sequence for a non-existent directory;
its result length is the minimum of `limit` and the number of matching
entries in the date-filtered files (so at most `limit`, and exactly `limit`
when at least `limit` entries match); every result comes from a `.jsonl` file
whose filename-derived date lies inside the inclusive bounds and carries the
context snippet of the entry's first matching message; and matching is a
case-insensitive substring test. -/
theorem C7_searchLogs_spec :
    (∀ (query dateFrom dateTo : List Char) (limit : Nat),
      searchLogs none query dateFrom dateTo limit = []) ∧
    (∀ (listing : List (List Char × List LogEntry)) (query dateFrom dateTo : List Char)
        (limit : Nat),
      (searchLogs (some listing) query dateFrom dateTo limit).length =
        min limit (countMatches (query.map Char.toLower) query.length
          (searchFiles listing dateFrom dateTo))) ∧
    (∀ (listing : List (List Char × List LogEntry)) (query dateFrom dateTo : List Char)
        (limit : Nat) (r : LogEntry × List Char),
      r ∈ searchLogs (some listing) query dateFrom dateTo limit →
      ∃ name entries, (name, entries) ∈ listing ∧ endsWithJsonl name = true ∧
        ¬(dateFrom ≠ [] ∧ lexLt (stripJsonl name) dateFrom = true) ∧
        ¬(dateTo ≠ [] ∧ lexLt dateTo (stripJsonl name) = true) ∧
        r.1 ∈ entries ∧
        firstMatch (query.map Char.toLower) query.length r.1.messages = some r.2) ∧
    (∀ (ql : List Char) (qLen : Nat) (msgs : List LogMessage) (ctx : List Char),
      firstMatch ql qLen msgs = some ctx →
      ∃ pre m post idx, msgs = pre ++ m :: post ∧
        (∀ m' ∈ pre, jsIndexOf (m'.content.map Char.toLower) ql = none) ∧
        jsIndexOf (m.content.map Char.toLower) ql = some idx ∧
        ctx = (if 0 < idx - 100 then "...".data else []) ++
          ((m.content.drop (idx - 100)).take
            (min m.content.length (idx + qLen + 100) - (idx - 100))) ++
          (if min m.content.length (idx + qLen + 100) < m.content.length
            then "...".data else [])) ∧
    (∀ (hay needle : List Char) (idx : Nat), jsIndexOf hay needle = some idx →
      needle.isPrefixOf (hay.drop idx) = true) := by
  refine ⟨fun _ _ _ _ => rfl, ?_, ?_, firstMatch_eq_some, jsIndexOf_isPrefixOf⟩
  · intro listing query dateFrom dateTo limit
    rw [searchLogs]
    rw [scanFiles_length limit _ _ _ [] (by simp)]
    simp
  · intro listing query dateFrom dateTo limit r hr
    rw [searchLogs] at hr
    rcases scanFiles_mem limit _ _ _ [] r hr with h0 | ⟨f, hf, hmem, hctx⟩
    · cases h0
    · rw [searchFiles, (List.mergeSort_perm _ _).mem_iff, List.mem_filter] at hf
      obtain ⟨hfm, hcond⟩ := hf
      rw [List.mem_map] at hfm
      obtain ⟨p, hp, hpf⟩ := hfm
      rw [List.mem_filter] at hp
      obtain ⟨hplist, hpends⟩ := hp
      refine ⟨p.1, p.2, hplist, hpends, ?_, ?_, ?_, hctx⟩
      · intro ⟨hne, hlt⟩
        rw [← hpf] at hcond
        simp only [Bool.and_eq_true, Bool.not_eq_true', Bool.and_eq_false_iff,
          decide_eq_false_iff_not] at hcond
        rcases hcond.1 with h | h
        · exact absurd hne (by simpa using h)
        · rw [hlt] at h; cases h
      · intro ⟨hne, hlt⟩
        rw [← hpf] at hcond
        simp only [Bool.and_eq_true, Bool.not_eq_true', Bool.and_eq_false_iff,
          decide_eq_false_iff_not] at hcond
        rcases hcond.2 with h | h
        · exact absurd hne (by simpa using h)
        · rw [hlt] at h; cases h
      · have : f.2 = p.2 := by rw [← hpf]
        rw [← this]
        exact hmem

/-- Sample log entry used by the search witness. -/
def sampleEntry : LogEntry :=
  ⟨"t".data, "u".data, "c".data, "s".data, [⟨Role.user, "Hello world".data, none⟩]⟩

/-- Witness for C7 at concrete inputs: a case-insensitive hit with no
truncation. -/
theorem C7_searchLogs_spec_witness :
    (sampleEntry, "Hello world".data) ∈
      searchLogs (some [("2026-02-07.jsonl".data, [sampleEntry])])
        "hello".data [] [] 5 ∧
    ∃ name entries,
      (name, entries) ∈ [("2026-02-07.jsonl".data, [sampleEntry])] ∧
      endsWithJsonl name = true ∧
      ¬(([] : List Char) ≠ [] ∧ lexLt (stripJsonl name) [] = true) ∧
      ¬(([] : List Char) ≠ [] ∧ lexLt [] (stripJsonl name) = true) ∧
      (sampleEntry, "Hello world".data).1 ∈ entries ∧
      firstMatch ("hello".data.map Char.toLower) "hello".data.length
        (sampleEntry, "Hello world".data).1.messages = some "Hello world".data := by
  have hsf : searchFiles [("2026-02-07.jsonl".data, [sampleEntry])] [] [] =
      [("2026-02-07".data, [sampleEntry])] := by
    show ([("2026-02-07".data, [sampleEntry])] :
        List (List Char × List LogEntry)).mergeSort (fun a b => lexLe b.1 a.1) = _
    exact List.mergeSort_singleton _
  have hs : searchLogs (some [("2026-02-07.jsonl".data, [sampleEntry])])
      "hello".data [] [] 5 = [(sampleEntry, "Hello world".data)] := by
    rw [searchLogs, hsf]
    rfl
  have hmem : (sampleEntry, "Hello world".data) ∈
      searchLogs (some [("2026-02-07.jsonl".data, [sampleEntry])])
        "hello".data [] [] 5 := by
    rw [hs]
    exact List.mem_singleton_self _
  exact ⟨hmem,
    C7_searchLogs_spec.2.2.1 [("2026-02-07.jsonl".data, [sampleEntry])]
      "hello".data [] [] 5 (sampleEntry, "Hello world".data) hmem⟩

/-! ## Maintenance scheduler (the `mem0-sleep` CLI action) -/

/-- Strict `YYYY-MM-DD` date validation, the `/^\d...$/` test of the CLI
action (four digits, hyphen, two digits, hyphen, two digits). -/
def validDate : List Char → Bool
  | [a, b, c, d, dash1, e, f, dash2, g, i] =>
    a.isDigit && b.isDigit && c.isDigit && d.isDigit && decide (dash1 = '-') &&
      e.isDigit && f.isDigit && decide (dash2 = '-') && g.isDigit && i.isDigit
  | _ => false

/-- Source function `readDailyLog(logPath)`: a missing file (`none`) reads as
zero entries; otherwise each line contributes its parsed entry, and blank or
malformed lines are skipped.  `readFileSync` and `JSON.parse` are external
primitives, so a file is modeled as the list of per-line parse outcomes
(`none` = blank or malformed line). -/
def readDailyLog (file : Option (List (Option LogEntry))) : List LogEntry :=
  match file with
  | none => []
  | some lines => lines.filterMap id

/-- The user/assistant messages a day submits to the memory store's
extraction (the source additionally truncates to `messages.slice(-20)`,
which does not change whether the call is made). -/
def dayMessages (entries : List LogEntry) : List LogMessage :=
  entries.flatMap (fun e => e.messages.filter
    (fun m => decide (m.role = Role.user) || decide (m.role = Role.assistant)))

/-- Environment of one `mem0-sleep` run: the daily-log files keyed by date,
the outcome of the memory store's `add` call per date (`false` = the call
throws), the outcome of the digest write per date, the digest toggle, and
the inputs of `findUnprocessedLogs` for discovery. -/
structure SleepEnv where
  fileFor : List Char → Option (List (Option LogEntry))
  addOk : List Char → Bool
  digestOk : List Char → Bool
  digestEnabled : Bool
  dir : Option (List (List Char))
  processed : List (List Char)
  today : List Char

/-- Observable outcome of one date's processing: whether the store `add`
call was made, whether the digest write was attempted, and whether the date
was appended to the processed watermark. -/
structure DayResult where
  calledAdd : Bool
  calledDigest : Bool
  marked : Bool
deriving DecidableEq, Repr

/-- One iteration of the per-date loop: an empty day is marked processed
immediately with no store or digest call; a day with no user/assistant
messages completes the try block trivially and is marked; a throwing `add`
or digest write skips `markProcessed` (the `catch` continues with the next
date); otherwise the date is marked after promotion (and digest, when
enabled) complete.  Chunking and prompt building are pure and do not affect
the outcome. -/
def runDay (env : SleepEnv) (date : List Char) : DayResult :=
  let entries := readDailyLog (env.fileFor date)
  if entries.length = 0 then ⟨false, false, true⟩
  else if 0 < (dayMessages entries).length then
    if env.addOk date then
      if env.digestEnabled then
        if env.digestOk date then ⟨true, true, true⟩ else ⟨true, true, false⟩
      else ⟨true, false, true⟩
    else ⟨true, false, false⟩
  else ⟨false, false, true⟩

/-- Result of a whole `mem0-sleep` invocation. -/
structure RunOutcome where
  invalidDate : Bool
  candidates : List (List Char)
  days : List (List Char × DayResult)
deriving DecidableEq, Repr

/-- The `mem0-sleep` CLI action: an explicit date is validated (a malformed
date aborts before touching any date) and becomes the single candidate
regardless of the processed set or today's date; otherwise candidates come
from `findUnprocessedLogs`; dry-run stops after discovery; otherwise every
candidate is processed in order.  A failure fetching dedup memories degrades
to an empty list and does not abort the run. -/
def runMaintenance (env : SleepEnv) (dateOpt : Option (List Char)) (dryRun : Bool) :
    RunOutcome :=
  match dateOpt with
  | some d =>
    if !validDate d then ⟨true, [], []⟩
    else if dryRun then ⟨false, [d], []⟩
    else ⟨false, [d], [d].map (fun d' => (d', runDay env d'))⟩
  | none =>
    let cands := findUnprocessedLogs env.dir env.processed env.today
    if dryRun then ⟨false, cands, []⟩
    else ⟨false, cands, cands.map (fun d' => (d', runDay env d'))⟩

/-- Specification predicate: no step of a date's try block throws. -/
def daySucceeds (env : SleepEnv) (date : List Char) : Prop :=
  readDailyLog (env.fileFor date) = [] ∨
  dayMessages (readDailyLog (env.fileFor date)) = [] ∨
  (env.addOk date = true ∧ (env.digestEnabled = false ∨ env.digestOk date = true))

theorem runDay_marked_iff (env : SleepEnv) (date : List Char) :
    (runDay env date).marked = true ↔ daySucceeds env date := by
  rw [runDay, daySucceeds]
  by_cases h0 : (readDailyLog (env.fileFor date)).length = 0
  · rw [if_pos h0]
    simp [List.length_eq_zero.mp h0]
  · rw [if_neg h0]
    have hne : ¬ readDailyLog (env.fileFor date) = [] := by
      intro h; exact h0 (by rw [h]; rfl)
    by_cases hm : 0 < (dayMessages (readDailyLog (env.fileFor date))).length
    · rw [if_pos hm]
      have hmne : ¬ dayMessages (readDailyLog (env.fileFor date)) = [] := by
        intro h; rw [h] at hm; exact absurd hm (by simp)
      by_cases ha : env.addOk date = true
      · rw [if_pos ha]
        by_cases hd : env.digestEnabled = true
        · rw [if_pos hd]
          by_cases hdo : env.digestOk date = true
          · rw [if_pos hdo]
            simp [hne, hmne, ha, hdo]
          · rw [if_neg hdo]
            simp [hne, hmne, hd, hdo]
        · rw [if_neg hd]
          simp [hne, hmne, ha, hd]
      · rw [if_neg ha]
        simp [hne, hmne, ha]
    · rw [if_neg hm]
      have hmne : dayMessages (readDailyLog (env.fileFor date)) = [] := by
        cases hd : dayMessages (readDailyLog (env.fileFor date)) with
        | nil => rfl
        | cons x xs => rw [hd] at hm; exact absurd (by simp) hm
      simp [hmne]

theorem runMaintenance_days_are_runDay (env : SleepEnv) (dateOpt : Option (List Char))
    (dryRun : Bool) :
    ∀ p ∈ (runMaintenance env dateOpt dryRun).days, p.2 = runDay env p.1 := by
  intro p hp
  cases dateOpt with
  | some d =>
    rw [runMaintenance] at hp
    by_cases hv : validDate d
    · rw [if_neg (by simp [hv])] at hp
      by_cases hdry : dryRun
      · rw [if_pos hdry] at hp; cases hp
      · rw [if_neg hdry] at hp
        simp only [List.map_cons, List.map_nil, List.mem_singleton] at hp
        rw [hp]
    · rw [if_pos (by simp [hv])] at hp; cases hp
  | none =>
    rw [runMaintenance] at hp
    by_cases hdry : dryRun
    · rw [if_pos hdry] at hp; cases hp
    · rw [if_neg hdry] at hp
      simp only [List.mem_map] at hp
      obtain ⟨d', _, hd'⟩ := hp
      rw [← hd']

/-- C1: per-day failure isolation of the maintenance run — when not a
dry-run and the explicit date (if any) is well-formed, every candidate date
is processed (the run never stops early, so an exception on one date does
not abort the run or skip later dates), and a date is marked in the
watermark exactly when its extract/promote/digest steps complete without
throwing; in particular a date whose step throws stays unmarked for retry. -/
theorem C1_per_day_failure_isolation (env : SleepEnv) (dateOpt : Option (List Char))
    (dryRun : Bool) (hdry : dryRun = false)
    (hvalid : (runMaintenance env dateOpt dryRun).invalidDate = false) :
    (runMaintenance env dateOpt dryRun).days =
      (runMaintenance env dateOpt dryRun).candidates.map (fun d => (d, runDay env d)) ∧
    (∀ p ∈ (runMaintenance env dateOpt dryRun).days,
      (p.2.marked = true ↔ daySucceeds env p.1)) ∧
    (∀ p ∈ (runMaintenance env dateOpt dryRun).days,
      ¬ daySucceeds env p.1 → p.2.marked = false) := by
  subst hdry
  have hmap : (runMaintenance env dateOpt false).days =
      (runMaintenance env dateOpt false).candidates.map (fun d => (d, runDay env d)) := by
    cases dateOpt with
    | some d =>
      rw [runMaintenance] at hvalid ⊢
      by_cases hv : validDate d
      · rw [if_neg (by simp [hv])]
        rfl
      · rw [if_pos (by simp [hv])] at hvalid
        cases hvalid
    | none =>
      rw [runMaintenance]
      rfl
  refine ⟨hmap, ?_, ?_⟩
  · intro p hp
    rw [runMaintenance_days_are_runDay env dateOpt false p hp]
    exact runDay_marked_iff env p.1
  · intro p hp hfail
    have := runMaintenance_days_are_runDay env dateOpt false p hp
    rw [this]
    cases hmk : (runDay env p.1).marked with
    | false => rfl
    | true => exact absurd ((runDay_marked_iff env p.1).mp hmk) hfail

/-- C6: a candidate date whose daily log yields zero entries is marked
processed immediately, with no store/extraction call and no digest write. -/
theorem C6_empty_day_vacuously_complete (env : SleepEnv) (dateOpt : Option (List Char))
    (dryRun : Bool) (d : List Char) (r : DayResult)
    (hmem : (d, r) ∈ (runMaintenance env dateOpt dryRun).days)
    (hempty : readDailyLog (env.fileFor d) = []) :
    r = ⟨false, false, true⟩ := by
  have hr := runMaintenance_days_are_runDay env dateOpt dryRun (d, r) hmem
  simp only at hr
  rw [hr, runDay]
  rw [if_pos (by rw [hempty]; rfl)]

/-- C9: with an explicit well-formed date, the candidate list is exactly that
single date — the environment (processed set, current date) is arbitrary, so
neither membership in the processed set nor equality with today changes
this — and since a missing log file reads as zero entries, such a run marks
the date processed without any store or digest write. -/
theorem C9_explicit_date (env : SleepEnv) (d : List Char) (hd : validDate d = true) :
    (runMaintenance env (some d) false).candidates = [d] ∧
    (runMaintenance env (some d) false).days = [(d, runDay env d)] ∧
    readDailyLog none = ([] : List LogEntry) ∧
    (env.fileFor d = none → runDay env d = ⟨false, false, true⟩) := by
  refine ⟨?_, ?_, rfl, ?_⟩
  · rw [runMaintenance, if_neg (by simp [hd])]
    rfl
  · rw [runMaintenance, if_neg (by simp [hd])]
    rfl
  · intro hfile
    rw [runDay]
    rw [if_pos (by rw [hfile]; rfl)]

/-- Environment used by the scheduler witnesses: no log files exist, all
store and digest calls succeed. -/
def sampleEnv : SleepEnv :=
  ⟨fun _ => none, fun _ => true, fun _ => true, true, none, [], "2026-02-10".data⟩

/-- Witness for C1 at a concrete run. -/
theorem C1_per_day_failure_isolation_witness :
    (false = false ∧
      (runMaintenance sampleEnv (some "2026-02-07".data) false).invalidDate = false) ∧
    (runMaintenance sampleEnv (some "2026-02-07".data) false).days =
      (runMaintenance sampleEnv (some "2026-02-07".data) false).candidates.map
        (fun d => (d, runDay sampleEnv d)) :=
  ⟨⟨rfl, by decide⟩,
    (C1_per_day_failure_isolation sampleEnv (some "2026-02-07".data) false rfl
      (by decide)).1⟩

/-- Witness for C6 at a concrete run: the explicit date has no log file, so
its day result is marked with no calls. -/
theorem C6_empty_day_vacuously_complete_witness :
    (("2026-02-07".data, (⟨false, false, true⟩ : DayResult)) ∈
        (runMaintenance sampleEnv (some "2026-02-07".data) false).days ∧
      readDailyLog (sampleEnv.fileFor "2026-02-07".data) = []) ∧
    (⟨false, false, true⟩ : DayResult) = ⟨false, false, true⟩ :=
  ⟨⟨by decide, rfl⟩,
    C6_empty_day_vacuously_complete sampleEnv (some "2026-02-07".data) false
      "2026-02-07".data ⟨false, false, true⟩ (by decide) rfl⟩

/-- Witness for C9 at a concrete run. -/
theorem C9_explicit_date_witness :
    validDate "2026-02-07".data = true ∧
    (runMaintenance sampleEnv (some "2026-02-07".data) false).candidates =
      ["2026-02-07".data] ∧
    runDay sampleEnv "2026-02-07".data = ⟨false, false, true⟩ :=
  ⟨by decide,
    (C9_explicit_date sampleEnv "2026-02-07".data (by decide)).1,
    (C9_explicit_date sampleEnv "2026-02-07".data (by decide)).2.2.2 rfl⟩

end Mem0
